import Mathlib

/-!
Verification of the schwift Swift client library core against its
natural-language specification.  The Go sources are shallowly embedded:
Go machine integers become `Nat`/`Int` with explicit `% 2^64` where the
source relies on wraparound, Go strings become `String`/`List Char`, and
fallible or panicking code returns `Option`/explicit outcome types.
-/

namespace Schwift

/-- Modulus of Go's uint64 arithmetic. -/
def u64 : Nat := 2 ^ 64

/-- Go conversion `uint64(x)` for an int64 value `x`, i.e. reduction mod 2^64
(two's complement reinterpretation). -/
def u64ofInt64 (x : Int) : Nat := (x % (u64 : Int)).toNat

/-- Decimal digit value of a character (as used by Go's strconv). -/
def dval (c : Char) : Nat := c.toNat - 48

/-- Decimal digit character for `d < 10`. -/
def digitChar (d : Nat) : Char := Char.ofNat (48 + d)

/-- Value of a big-endian list of decimal digit characters
(the accumulator loop of Go's `strconv.ParseUint`). -/
def digitsVal (l : List Char) : Nat := l.foldl (fun acc c => 10 * acc + dval c) 0

/-- Fuel-driven recursion for decimal formatting (structural, so that the
kernel can evaluate it; `fuel > n` always suffices since `n/10 < n`). -/
def natDecCharsAux : Nat → Nat → List Char
  | 0, _ => []
  | fuel + 1, n =>
    if n < 10 then [digitChar n]
    else natDecCharsAux fuel (n / 10) ++ [digitChar (n % 10)]

/-- Decimal digit characters of `n`, big-endian; embeds Go's
`strconv.FormatUint(n, 10)`. -/
def natDecChars (n : Nat) : List Char := natDecCharsAux (n + 1) n

/-- With enough fuel, `natDecCharsAux` computes `natDecChars`. -/
theorem natDecCharsAux_eq (fuel n : Nat) (h : n < fuel) :
    natDecCharsAux fuel n = natDecChars n := by
  induction fuel using Nat.strong_induction_on generalizing n with
  | _ fuel ih =>
    match fuel, h with
    | fuel + 1, h =>
      show natDecCharsAux (fuel + 1) n = natDecCharsAux (n + 1) n
      by_cases h10 : n < 10
      · simp [natDecCharsAux, h10]
      · have hd : n / 10 < n := Nat.div_lt_self (by omega) (by omega)
        simp only [natDecCharsAux, h10, if_false]
        rw [ih fuel (by omega) (n / 10) (by omega),
          ih n (by omega) (n / 10) (by omega)]

/-- Unfolding rule for `natDecChars`. -/
theorem natDecChars_eq (n : Nat) :
    natDecChars n =
      if n < 10 then [digitChar n]
      else natDecChars (n / 10) ++ [digitChar (n % 10)] := by
  show natDecCharsAux (n + 1) n = _
  by_cases h10 : n < 10
  · simp [natDecCharsAux, h10]
  · simp only [natDecCharsAux, h10, if_false]
    rw [natDecCharsAux_eq n (n / 10) (by omega : n / 10 < n)]

/-- String form of `natDecChars`. -/
def natDec (n : Nat) : String := ⟨natDecChars n⟩

theorem dval_digitChar {d : Nat} (h : d < 10) : dval (digitChar d) = d := by
  interval_cases d <;> decide

theorem isDigit_digitChar {d : Nat} (h : d < 10) :
    (digitChar d).isDigit = true := by
  interval_cases d <;> decide

theorem digitsVal_append_singleton (l : List Char) (c : Char) :
    digitsVal (l ++ [c]) = 10 * digitsVal l + dval c := by
  simp [digitsVal, List.foldl_append]

theorem natDecChars_ne_nil (n : Nat) : natDecChars n ≠ [] := by
  rw [natDecChars_eq]
  split <;> simp

theorem natDecChars_all_digit (n : Nat) :
    (natDecChars n).all (·.isDigit) = true := by
  induction n using Nat.strong_induction_on with
  | _ n ih =>
    rw [natDecChars_eq]
    by_cases h10 : n < 10
    · simp [h10, isDigit_digitChar h10]
    · rw [if_neg h10]
      have := ih (n / 10) (Nat.div_lt_self (by omega) (by omega))
      simp_all [List.all_append, isDigit_digitChar (Nat.mod_lt n (by omega))]

theorem digitsVal_natDecChars (n : Nat) : digitsVal (natDecChars n) = n := by
  induction n using Nat.strong_induction_on with
  | _ n ih =>
    rw [natDecChars_eq]
    by_cases h10 : n < 10
    · simp [h10, digitsVal, dval_digitChar h10]
    · rw [if_neg h10, digitsVal_append_singleton,
        ih (n / 10) (Nat.div_lt_self (by omega) (by omega)),
        dval_digitChar (Nat.mod_lt n (by omega))]
      omega

/-- Decimal digit characters contain no dash. -/
theorem natDecChars_no_dash (n : Nat) : '-' ∉ natDecChars n := by
  intro hmem
  have hall := natDecChars_all_digit n
  rw [List.all_eq_true] at hall
  have := hall _ hmem
  simp [Char.isDigit] at this

/-- Go's `strconv.ParseUint(s, 10, bits)`: succeeds iff the string is a
non-empty run of decimal digits whose value fits in `bits` bits.  (Go
returns `MaxUint64` together with an error on overflow; only the
success/failure distinction and the success value matter here.) -/
def parseUintChars (l : List Char) (bits : Nat) : Option Nat :=
  if l ≠ [] ∧ l.all (·.isDigit) ∧ digitsVal l < 2 ^ bits then some (digitsVal l)
  else none

/-- Split a character list at the first `'-'`, embedding
`strings.SplitN(str, "-", 2)`; `none` when there is no `'-'`
(Go then yields a one-element slice and `parseHTTPRange` fails). -/
def breakAtDash : List Char → Option (List Char × List Char)
  | [] => none
  | c :: cs =>
    if c = '-' then some ([], cs)
    else (breakAtDash cs).map (fun p => (c :: p.1, p.2))

/-- Case analysis of `parseHTTPRange` after the `SplitN` on `"-"`:
`f0` is the part before the first dash, `f1` the part after it. -/
def parseRangeFields (f0 f1 : List Char) : Option (Int × Nat) :=
  if f0 = [] then
    if f1 = [] then some (0, 0)
    else match parseUintChars f1 64 with
      | none => none
      | some numBytes => some (-1, numBytes)
  else match parseUintChars f0 63 with
    | none => none
    | some firstByte =>
      if f1 = [] then some ((firstByte : Int), 0)
      else match parseUintChars f1 64 with
        | none => none
        | some lastByte =>
          if lastByte < firstByte then none
          else some ((firstByte : Int), (lastByte - firstByte + 1) % u64)

/-- Embedding of `parseHTTPRange` (src/largeobject.go): decodes the HTTP
byte-range syntax into `(offsetVal, lengthVal)`.  The subtraction
`lastByte - firstByte + 1` is Go uint64 arithmetic, hence the `% u64`. -/
def parseHTTPRange (str : List Char) : Option (Int × Nat) :=
  match breakAtDash str with
  | none => none
  | some (f0, f1) => parseRangeFields f0 f1

/-- Embedding of the `si.Range` computation in `writeSLOManifest`
(src/largeobject.go): for a negative offset `"-<length>"`, otherwise
`"<offset>-<offset+length-1>"` where the last-byte position is computed
in Go uint64 arithmetic (`uint64(s.RangeOffset)+s.RangeLength-1`). -/
def renderSLORange (offset : Int) (length : Nat) : List Char :=
  if offset < 0 then '-' :: natDecChars length
  else
    let firstByte := u64ofInt64 offset
    let lastByte := (firstByte + length + (u64 - 1)) % u64
    natDecChars firstByte ++ '-' :: natDecChars lastByte

theorem parseUintChars_natDecChars (n bits : Nat) (h : n < 2 ^ bits) :
    parseUintChars (natDecChars n) bits = some n := by
  unfold parseUintChars
  rw [if_pos ⟨natDecChars_ne_nil n, natDecChars_all_digit n,
    by rw [digitsVal_natDecChars]; exact h⟩, digitsVal_natDecChars]

theorem breakAtDash_append (a b : List Char) (ha : '-' ∉ a) :
    breakAtDash (a ++ '-' :: b) = some (a, b) := by
  induction a with
  | nil => simp [breakAtDash]
  | cons c cs ih =>
    have hc : ¬ c = '-' := by intro hc; exact ha (by simp [hc])
    simp only [List.cons_append, breakAtDash, if_neg hc, List.append_eq,
      ih (fun hmem => ha (List.mem_cons_of_mem _ hmem)), Option.map_some']

theorem u64ofInt64_nonneg {x : Int} (h0 : 0 ≤ x) (h1 : x < (u64 : Int)) :
    u64ofInt64 x = x.toNat := by
  unfold u64ofInt64
  rw [Int.emod_eq_of_lt h0 h1]

theorem u64_val : u64 = 18446744073709551616 := by norm_num [u64]

theorem parseRangeFields_negCase (length : Nat) (h : length < 2 ^ 64) :
    parseRangeFields [] (natDecChars length) = some (-1, length) := by
  unfold parseRangeFields
  rw [if_pos rfl, if_neg (natDecChars_ne_nil length),
    parseUintChars_natDecChars length 64 h]

theorem parseRangeFields_posCase (f last : Nat) (hf : f < 2 ^ 63)
    (hl : last < 2 ^ 64) :
    parseRangeFields (natDecChars f) (natDecChars last) =
      if last < f then none
      else some ((f : Int), (last - f + 1) % u64) := by
  simp only [parseRangeFields, natDecChars_ne_nil,
    parseUintChars_natDecChars f 63 hf, parseUintChars_natDecChars last 64 hl,
    if_false, ite_false]

/-- Exact behaviour of parsing back a rendered byte range: negative offsets
come back as `-1`; a zero length survives only at offset `0` (via a double
uint64 wraparound); positive lengths survive exactly when
`offset + length` does not overflow uint64. -/
theorem parse_renderSLORange (offset : Int) (length : Nat)
    (hOffHi : offset < 2 ^ 63) (hLen : length < u64) :
    parseHTTPRange (renderSLORange offset length) =
      if offset < 0 then some (-1, length)
      else if length = 0 then (if offset = 0 then some (0, 0) else none)
      else if offset + length ≤ (u64 : Int) then some (offset, length)
      else none := by
  have hLen' : length < 2 ^ 64 := by rw [u64_val] at hLen; norm_num; omega
  by_cases hneg : offset < 0
  · rw [if_pos hneg]
    unfold renderSLORange
    rw [if_pos hneg]
    show parseHTTPRange (([] : List Char) ++ '-' :: natDecChars length) = _
    unfold parseHTTPRange
    rw [breakAtDash_append [] (natDecChars length) (by simp)]
    exact parseRangeFields_negCase length hLen'
  · rw [if_neg hneg]
    push_neg at hneg
    unfold renderSLORange
    rw [if_neg (by omega)]
    have hoff64 : offset < (u64 : Int) := by
      rw [u64_val]; omega
    have hf : u64ofInt64 offset = offset.toNat := u64ofInt64_nonneg hneg hoff64
    simp only [hf]
    set f := offset.toNat with hfdef
    have hfbound : f < 2 ^ 63 := by omega
    have hfu64 : f < u64 := by rw [u64_val] at *; omega
    set last := (f + length + (u64 - 1)) % u64 with hlast
    have hlastlt : last < u64 := Nat.mod_lt _ (by rw [u64_val]; omega)
    have hlastlt' : last < 2 ^ 64 := by rw [u64_val] at hlastlt; omega
    unfold parseHTTPRange
    rw [breakAtDash_append _ _ (natDecChars_no_dash f)]
    show parseRangeFields (natDecChars f) (natDecChars last) = _
    rw [parseRangeFields_posCase f last hfbound hlastlt']
    by_cases hlen0 : length = 0
    · subst hlen0
      rw [if_pos rfl]
      by_cases hf0 : f = 0
      · have h0 : offset = 0 := by omega
        have hlv : last = u64 - 1 := by
          rw [hlast, hf0, u64_val]
        rw [if_neg (by omega), hlv]
        have hz : (u64 - 1 - 0 + 1) % u64 = 0 := by rw [u64_val]
        simp only [hf0, hz, h0]
        simp
      · have hlv : last = f - 1 := by
          rw [hlast, u64_val] at *
          omega
        rw [if_pos (by omega), if_neg (by omega : ¬ offset = 0)]
    · rw [if_neg hlen0]
      by_cases hwrap : offset + length ≤ (u64 : Int)
      · rw [if_pos hwrap]
        have hsum : f + length ≤ u64 := by rw [u64_val] at *; omega
        have hlv : last = f + length - 1 := by
          rw [hlast, u64_val] at *
          omega
        rw [if_neg (by omega : ¬ last < f)]
        have hmod : (last - f + 1) % u64 = length := by
          rw [hlv, u64_val] at *
          omega
        have hcast : (f : Int) = offset := by omega
        rw [hmod, hcast]
      · rw [if_neg hwrap]
        have hsum : u64 < f + length := by rw [u64_val] at *; omega
        have hlv : last = f + length - 1 - u64 := by
          rw [hlast, u64_val] at *
          omega
        have hlt : last < f := by rw [u64_val] at *; omega
        rw [if_pos hlt]

/-- An account handle.  Only its identity matters for the claims; per the
spec an account is identified by its endpoint URL. -/
structure Account where
  endpointURL : String
deriving DecidableEq

/-- A container handle: parent account plus container name
(src/container.go). -/
structure Container where
  a : Account
  name : String
deriving DecidableEq

/-- An object handle: parent container plus object name. -/
structure Object where
  c : Container
  name : String
deriving DecidableEq

/-- Embedding of `Object.FullName`: `container-name + "/" + object-name`. -/
def Object.FullName (o : Object) : String := o.c.name ++ "/" ++ o.name

/-- Modelled from the spec: `Account.isEqualTo` is called from
src/largeobject.go but its definition is not among the source files.  Per the
spec (§3) object references are equal "when their account endpoints and full
paths match", so two accounts are equal exactly when their endpoints match. -/
def Account.isEqualTo (x y : Account) : Bool := x.endpointURL == y.endpointURL

/-- Modelled from the spec: `Container.isEqualTo` is called from
src/largeobject.go but its definition is not among the source files.  Per the
spec (§3), equality of references is equality of account endpoint and path,
so two containers are equal exactly when their accounts are equal and their
names coincide. -/
def Container.isEqualTo (x y : Container) : Bool :=
  x.a.isEqualTo y.a && (x.name == y.name)

/-- Embedding of `LargeObjectStrategy` (src/largeobject.go). -/
inductive LargeObjectStrategy
  | staticLO
  | dynamicLO
deriving DecidableEq

/-- Embedding of `SegmentInfo` (src/largeobject.go).  Byte content is a list
of byte values. -/
structure SegmentInfo where
  object : Option Object := none
  sizeBytes : Nat := 0
  etag : String := ""
  rangeLength : Nat := 0
  rangeOffset : Int := 0
  data : List Nat := []
deriving DecidableEq

/-- Embedding of `LargeObject` (src/largeobject.go).  `segmentContainer` is
an `Option` because the Go field is a nilable pointer; `segmentNamePfx`
embeds the Go field holding the segment name stem (`lo.SegmentPrefix`). -/
structure LargeObject where
  object : Object
  segmentContainer : Option Container := none
  segmentNamePfx : String := ""
  strategy : LargeObjectStrategy := .staticLO
  segments : List SegmentInfo := []
deriving DecidableEq

/-- The sentinel error values of the library (src/errors.go and the
large-object error values referenced from src/largeobject.go). -/
inductive SchwiftError
  | segmentInvalid
  | accountMismatch
  | containerMismatch
  | noContainerName
  | malformedContainerName
deriving DecidableEq

/-- Outcome of a call to `AddSegment`: normal return with `nil` error,
return of a sentinel error, or a runtime panic (nil-pointer dereference). -/
inductive AddSegmentOutcome
  | ok
  | failed (e : SchwiftError)
  | panicked
deriving DecidableEq

/-- Minimal shape of an HTTP request issued through the request envelope;
used to make "no network request" statable for `AddSegment`. -/
structure SwiftRequest where
  method : String
  path : String
deriving DecidableEq

/-- Embedding of `LargeObject.AddSegment` (src/largeobject.go).  Returns the
outcome, the post-state of the receiver (the method mutates `lo.segments` in
place on success) and the list of HTTP requests issued; the body of
`AddSegment` contains no call into the request plumbing, so that list is
empty on every path.  The account check dereferences `lo.SegmentContainer`,
which panics when the field is nil. -/
def addSegmentFull (lo : LargeObject) (seg : SegmentInfo) :
    AddSegmentOutcome × LargeObject × List SwiftRequest :=
  if seg.data.length = 0 then
    match seg.object with
    | none => (.failed .segmentInvalid, lo, [])
    | some o =>
      match lo.segmentContainer with
      | none => (.panicked, lo, [])
      | some sc =>
        if !(o.c.a.isEqualTo sc.a) then (.failed .accountMismatch, lo, [])
        else
          match lo.strategy with
          | .dynamicLO =>
            if seg.rangeLength ≠ 0 ∨ seg.rangeOffset ≠ 0 then
              (.failed .segmentInvalid, lo, [])
            else if !(o.c.isEqualTo sc) then
              (.failed .containerMismatch, lo, [])
            else if !(lo.segmentNamePfx.data.isPrefixOf o.name.data) then
              (.failed .containerMismatch, lo, [])
            else (.ok, { lo with segments := lo.segments ++ [seg] }, [])
          | .staticLO =>
            if seg.rangeLength = 0 ∧ seg.rangeOffset < 0 then
              (.failed .segmentInvalid, lo, [])
            else (.ok, { lo with segments := lo.segments ++ [seg] }, [])
  else
    if lo.strategy ≠ .staticLO then (.failed .segmentInvalid, lo, [])
    else if seg.object ≠ none ∨ seg.sizeBytes ≠ 0 ∨ seg.etag ≠ "" ∨
        seg.rangeLength ≠ 0 ∨ seg.rangeOffset ≠ 0 then
      (.failed .segmentInvalid, lo, [])
    else (.ok, { lo with segments := lo.segments ++ [seg] }, [])

/-- The base64 standard alphabet. -/
def base64Alphabet : List Char :=
  "ABCDEFGHIJKLMNOPQRSTUVWXYZabcdefghijklmnopqrstuvwxyz0123456789+/".data

/-- Character at a base64 index. -/
def b64Char (i : Nat) : Char := base64Alphabet.getD i 'A'

/-- Embedding of `base64.StdEncoding.EncodeToString` on byte lists. -/
def base64EncChars : List Nat → List Char
  | [] => []
  | [a] => [b64Char (a / 4), b64Char (a % 4 * 16), '=', '=']
  | [a, b] => [b64Char (a / 4), b64Char (a % 4 * 16 + b / 16),
      b64Char (b % 16 * 4), '=']
  | a :: b :: c :: rest =>
    b64Char (a / 4) :: b64Char (a % 4 * 16 + b / 16) ::
      b64Char (b % 16 * 4 + c / 64) :: b64Char (c % 64) :: base64EncChars rest

/-- Embedding of `sloSegmentInfo` (src/largeobject.go), the JSON record shape
of one static-manifest entry.  Every field carries `omitempty`, so a field
holding its zero value is omitted from the serialised JSON. -/
structure SLOSegmentRecord where
  path : String := ""
  sizeBytes : Nat := 0
  etag : String := ""
  range : String := ""
  dataBase64 : String := ""
deriving DecidableEq

/-- Embedding of the per-segment record construction in `writeSLOManifest`
(src/largeobject.go).  `none` models the nil-pointer panic on an
object-backed segment without an object reference (`s.Object.FullName()`).
-/
def renderSLOSegment (s : SegmentInfo) : Option SLOSegmentRecord :=
  if s.data.length > 0 then
    some { dataBase64 := ⟨base64EncChars s.data⟩ }
  else
    match s.object with
    | none => none
    | some o =>
      some { path := "/" ++ o.FullName
             sizeBytes := s.sizeBytes
             etag := s.etag
             range := ⟨renderSLORange s.rangeOffset s.rangeLength⟩ }

/-- With `omitempty`, the `range` field is omitted from the serialised JSON
record exactly when it holds the empty string. -/
def rangeOmitted (r : SLOSegmentRecord) : Prop := r.range = ""

example : renderSLORange 0 0 = "0-18446744073709551615".data := by decide
example : renderSLORange 5 0 = "5-4".data := by decide
example : renderSLORange (-7) 3 = "-3".data := by decide
example : renderSLORange 6 5 = "6-10".data := by decide
example : parseHTTPRange "6-10".data = some (6, 5) := by decide
example : parseHTTPRange "5-4".data = none := by decide
example : parseHTTPRange "-3".data = some (-1, 3) := by decide
example : parseHTTPRange "0-18446744073709551615".data = some (0, 0) := by
  decide

/-- A concrete account/container/object fixture used in concrete theorems. -/
def acct0 : Account := ⟨"https://swift.example.com/v1/AUTH_test/"⟩

/-- Concrete segment container fixture. -/
def segCont0 : Container := ⟨acct0, "segs"⟩

/-- Concrete large-object target fixture. -/
def target0 : Object := ⟨⟨acct0, "public"⟩, "archive"⟩

/-- Concrete static large object with an empty segment sequence. -/
def slo0 : LargeObject :=
  { object := target0
    segmentContainer := some segCont0
    segmentNamePfx := "archive/"
    strategy := .staticLO }

/-- Concrete object-backed segment with the default (zero) byte range — the
shape produced for every ordinary segment written through the writer. -/
def zeroRangeSeg : SegmentInfo :=
  { object := some ⟨segCont0, "archive/0000000000000001"⟩
    sizeBytes := 128
    etag := "etag1" }

/-- Manifest record actually produced for `zeroRangeSeg` by the code. -/
def zeroRangeRec : SLOSegmentRecord :=
  { path := "/segs/archive/0000000000000001"
    sizeBytes := 128
    etag := "etag1"
    range := "0-18446744073709551615" }

/-- C1: the spec says the `range` field of a static-manifest record is
omitted when both range offset and range length are zero, but
`writeSLOManifest` (src/largeobject.go) renders the range unconditionally
for object-backed segments: a segment with the default zero range — the
shape produced for every ordinary segment written through the large-object
writer — is serialised with `range = "0-18446744073709551615"` (uint64
wraparound of `0+0-1`), so the field is present, contradicting the spec,
the `omitempty` intent of the record type, and the parser side which maps
an absent range to the zero range. -/
theorem c1_zero_range_is_rendered_not_omitted :
    renderSLOSegment zeroRangeSeg = some zeroRangeRec ∧
      ¬ rangeOmitted zeroRangeRec := by
  constructor
  · decide
  · intro h
    simp [rangeOmitted, zeroRangeRec] at h

/-- Object-backed segment with range `(offset 5, length 0)`. -/
def rangeSeg50 : SegmentInfo :=
  { object := some ⟨segCont0, "s1"⟩, rangeOffset := 5, rangeLength := 0 }

/-- Object-backed segment with range `(offset -5, length 3)`. -/
def rangeSegNeg5 : SegmentInfo :=
  { object := some ⟨segCont0, "s1"⟩, rangeOffset := -5, rangeLength := 3 }

/-- Object-backed segment whose range end overflows uint64. -/
def rangeSegBig : SegmentInfo :=
  { object := some ⟨segCont0, "s1"⟩
    rangeOffset := 2 ^ 63 - 1
    rangeLength := 2 ^ 63 + 2 }

/-- C2 counterexample: three byte-range descriptors accepted by `AddSegment`
on a static large object whose render/parse round trip does not return the
original descriptor: `(5, 0)` renders as `"5-4"` which the parser rejects;
`(-5, 3)` renders as `"-3"` which parses back as `(-1, 3)`; and
`(2^63-1, 2^63+2)` overflows uint64 in the rendered last-byte position and
the result fails to parse. -/
theorem c2_counterexample :
    (addSegmentFull slo0 rangeSeg50).1 = .ok ∧
    parseHTTPRange (renderSLORange 5 0) = none ∧
    (addSegmentFull slo0 rangeSegNeg5).1 = .ok ∧
    parseHTTPRange (renderSLORange (-5) 3) = some (-1, 3) ∧
    (addSegmentFull slo0 rangeSegBig).1 = .ok ∧
    parseHTTPRange (renderSLORange (2 ^ 63 - 1) (2 ^ 63 + 2)) = none := by
  refine ⟨by decide, by decide, by decide, by decide, by decide, ?_⟩
  rw [parse_renderSLORange (2 ^ 63 - 1) (2 ^ 63 + 2) (by norm_num)
    (by rw [u64_val]; norm_num)]
  norm_num [u64_val]

/-- C2 (amended): for a byte-range descriptor `(offset, length)` within the
int64/uint64 value ranges and accepted by `AddSegment` on a static large
object (not both `length = 0` and `offset < 0`), the render/parse round
trip through the static-manifest serialisation returns the original
descriptor exactly when the descriptor is the zero range `(0, 0)`, or
`offset = -1` with positive length, or a non-negative offset with positive
length such that `offset + length` does not exceed `2^64` (negative offsets
other than `-1` are normalised to `-1`; a zero length with positive offset
and uint64 overflow both fail to re-parse). -/
theorem c2_roundTrip_characterisation (offset : Int) (length : Nat)
    (_h1 : -(2 ^ 63) ≤ offset) (h2 : offset < 2 ^ 63) (h3 : length < u64)
    (hacc : ¬(length = 0 ∧ offset < 0)) :
    parseHTTPRange (renderSLORange offset length) = some (offset, length) ↔
      ((offset = 0 ∧ length = 0) ∨ (offset = -1 ∧ 0 < length) ∨
        (0 ≤ offset ∧ 0 < length ∧ offset + length ≤ (u64 : Int))) := by
  rw [parse_renderSLORange offset length h2 h3]
  by_cases hneg : offset < 0
  · have hlenpos : 0 < length := by
      rcases Nat.eq_zero_or_pos length with h | h
      · exact absurd ⟨h, hneg⟩ hacc
      · exact h
    rw [if_pos hneg]
    constructor
    · intro h
      rw [Option.some.injEq, Prod.mk.injEq] at h
      exact Or.inr (Or.inl ⟨h.1.symm, hlenpos⟩)
    · rintro (⟨h0, _⟩ | ⟨hm1, _⟩ | ⟨hge, _, _⟩)
      · omega
      · rw [hm1]
      · omega
  · push_neg at hneg
    rw [if_neg (by omega)]
    by_cases hlen0 : length = 0
    · subst hlen0
      rw [if_pos rfl]
      by_cases h0 : offset = 0
      · subst h0
        simp
      · rw [if_neg h0]
        constructor
        · intro h
          exact absurd h (by simp)
        · rintro (⟨h, _⟩ | ⟨hm1, hpos⟩ | ⟨_, hpos, _⟩) <;> first
            | exact absurd h h0
            | omega
    · rw [if_neg hlen0]
      by_cases hwrap : offset + length ≤ (u64 : Int)
      · rw [if_pos hwrap]
        constructor
        · intro _
          exact Or.inr (Or.inr ⟨hneg, by omega, hwrap⟩)
        · intro _
          rfl
      · rw [if_neg hwrap]
        constructor
        · intro h
          exact absurd h (by simp)
        · rintro (⟨_, h⟩ | ⟨_, _⟩ | ⟨_, _, h⟩) <;> omega

/-- C2 witness: the round-trip characterisation applied to the concrete
descriptor `(6, 5)`. -/
theorem c2_roundTrip_witness :
    parseHTTPRange (renderSLORange 6 5) = some (6, 5) :=
  (c2_roundTrip_characterisation 6 5 (by norm_num) (by norm_num) (by decide)
    (by norm_num)).mpr (Or.inr (Or.inr ⟨by norm_num, by norm_num, by decide⟩))

/-- The `AddSegment` validation matrix exactly as the spec states it
(§4.5.7), rows checked top to bottom; `none` means the descriptor is
accepted. -/
def addSegmentErrorMatrix (strategy : LargeObjectStrategy) (sc : Container)
    (pfx : String) (seg : SegmentInfo) : Option SchwiftError :=
  if seg.data.length = 0 then
    match seg.object with
    | none => some .segmentInvalid
    | some o =>
      if ¬ o.c.a.isEqualTo sc.a then some .accountMismatch
      else if strategy = .dynamicLO ∧
          (seg.rangeLength ≠ 0 ∨ seg.rangeOffset ≠ 0) then
        some .segmentInvalid
      else if strategy = .dynamicLO ∧ ¬ o.c.isEqualTo sc then
        some .containerMismatch
      else if strategy = .dynamicLO ∧ ¬ pfx.data.isPrefixOf o.name.data then
        some .containerMismatch
      else if strategy = .staticLO ∧ seg.rangeLength = 0 ∧
          seg.rangeOffset < 0 then
        some .segmentInvalid
      else none
  else
    if strategy = .dynamicLO then some .segmentInvalid
    else if seg.object ≠ none ∨ seg.sizeBytes ≠ 0 ∨ seg.etag ≠ "" ∨
        seg.rangeLength ≠ 0 ∨ seg.rangeOffset ≠ 0 then
      some .segmentInvalid
    else none

/-- C3: with the working segment container set, `AddSegment` returns exactly
the error given by the spec's error matrix, and in every other case returns
no error and appends the descriptor to the in-memory sequence. -/
theorem c3_addSegment_matches_error_matrix (lo : LargeObject)
    (seg : SegmentInfo) (sc : Container) (h : lo.segmentContainer = some sc) :
    addSegmentFull lo seg =
      match addSegmentErrorMatrix lo.strategy sc lo.segmentNamePfx seg with
      | some e => (.failed e, lo, [])
      | none => (.ok, { lo with segments := lo.segments ++ [seg] }, []) := by
  unfold addSegmentFull addSegmentErrorMatrix
  cases hst : lo.strategy <;>
    rcases hobj : seg.object with _ | o <;>
      simp only [h, hst, hobj] <;> split_ifs <;> simp_all

/-- C3 witness: the matrix applied to a concrete static large object and the
descriptor with no object reference and no inline data. -/
theorem c3_witness :
    addSegmentFull slo0 {} = (.failed .segmentInvalid, slo0, []) := by
  rw [c3_addSegment_matches_error_matrix slo0 {} segCont0 rfl]
  decide

/-- Every execution of `AddSegment` ends in exactly one of three shapes:
success with the descriptor appended, an error return with the receiver
untouched, or the nil-container panic with the receiver untouched; no HTTP
request is issued on any path. -/
theorem addSegmentFull_cases (lo : LargeObject) (seg : SegmentInfo) :
    addSegmentFull lo seg =
        (.ok, { lo with segments := lo.segments ++ [seg] }, []) ∨
      (∃ e, addSegmentFull lo seg = (.failed e, lo, [])) ∨
      addSegmentFull lo seg = (.panicked, lo, []) := by
  unfold addSegmentFull
  by_cases hd : seg.data.length = 0 <;>
    rcases hobj : seg.object with _ | o <;>
    rcases hsc : lo.segmentContainer with _ | sc <;>
    cases hst : lo.strategy <;>
    simp only [hd, hobj, hsc, hst, if_pos, if_neg, ite_true, ite_false] <;>
    first
      | (split_ifs <;> simp)
      | simp

/-- C7: `AddSegment` issues no HTTP request and changes no state other than
the in-memory segment sequence: on a `nil`-error return the sequence grows
by exactly the given descriptor at the end, on any other outcome the
receiver (sequence and all other fields) is unchanged. -/
theorem c7_addSegment_frame (lo : LargeObject) (seg : SegmentInfo) :
    (addSegmentFull lo seg).2.2 = [] ∧
      ((addSegmentFull lo seg).1 = .ok →
        (addSegmentFull lo seg).2.1 =
          { lo with segments := lo.segments ++ [seg] }) ∧
      ((addSegmentFull lo seg).1 ≠ .ok →
        (addSegmentFull lo seg).2.1 = lo) := by
  rcases addSegmentFull_cases lo seg with h | ⟨e, h⟩ | h <;>
    rw [h] <;> simp

/-- C7 witness: the frame property applied to a concrete large object and
segment, with both implications discharged on the relevant concrete calls.
-/
theorem c7_addSegment_frame_witness :
    (addSegmentFull slo0 zeroRangeSeg).2.1 =
        { slo0 with segments := [zeroRangeSeg] } ∧
      (addSegmentFull slo0 {}).2.1 = slo0 :=
  ⟨(c7_addSegment_frame slo0 zeroRangeSeg).2.1 (by decide),
    (c7_addSegment_frame slo0 {}).2.2 (by decide)⟩

/-- Fresh large object as produced by `AsLargeObject` for an object that
does not exist yet: nil segment container, static strategy, no segments. -/
def freshLO : LargeObject := { object := target0 }

/-- C10: calling `AddSegment` with an object-backed descriptor on a
`LargeObject` whose `SegmentContainer` is nil does not return an error
value: the account-equality check dereferences the nil pointer, so the call
panics; the operation is only well-defined when the container is set. -/
theorem c10_nil_container_panics (lo : LargeObject) (seg : SegmentInfo)
    (hsc : lo.segmentContainer = none) (hd : seg.data = [])
    (ho : seg.object ≠ none) :
    (addSegmentFull lo seg).1 = .panicked ∧
      ∀ e, (addSegmentFull lo seg).1 ≠ .failed e := by
  rcases hobj : seg.object with _ | o
  · exact absurd hobj ho
  · unfold addSegmentFull
    rw [if_pos (by rw [hd]; rfl), hobj, hsc]
    exact ⟨rfl, fun e h => by cases h⟩

/-- C10 witness: the nil-container panic on the fresh large object. -/
theorem c10_nil_container_panics_witness :
    (addSegmentFull freshLO zeroRangeSeg).1 = .panicked :=
  (c10_nil_container_panics freshLO zeroRangeSeg rfl rfl (by decide)).1

/-- Embedding of `RequestOptions` (src/request.go): this revision carries
only query values; a value map is a list of key/value pairs. -/
structure RequestOptionsV where
  values : List (String × String) := []
deriving DecidableEq

/-- An HTTP response: status code and (fully collected) body bytes. -/
structure HTTPResponse where
  statusCode : Nat
  body : List Nat
deriving DecidableEq

/-- Embedding of `Request` (src/request.go). -/
structure GoRequest where
  method : String := ""
  containerName : String := ""
  objectName : String := ""
  headersR : List (String × String) := []
  options : Option RequestOptionsV := none
  expectStatusCodes : List Nat := []
  drainResponseBody : Bool := false

/-- Embedding of the `Client` interface consumed by `Request.Do`
(src/client.go): the endpoint URL and the transport dispatch; `none`
models a transport error. -/
structure ClientModel where
  endpointURLStr : String
  respond : String → String → Option HTTPResponse

/-- Query-string encoding of `url.Values` (the Go stdlib sorts the keys and
percent-escapes; neither affects any claim, so keys are joined in order). -/
def encodeQuery (values : List (String × String)) : String :=
  String.intercalate "&" (values.map (fun p => p.1 ++ "=" ++ p.2))

/-- URL assembly with an optional query part (`uri.RawQuery`). -/
def addQuery (p : String) (values : List (String × String)) : String :=
  if values.isEmpty then p else p ++ "?" ++ encodeQuery values

/-- Embedding of `Request.URL` (src/request.go).  `url.Parse` of the
endpoint is modelled as total: the backend contract guarantees an absolute
well-formed URL ending in `/`. -/
def requestURL (endpoint : String) (r : GoRequest)
    (values : List (String × String)) : Except SchwiftError String :=
  let p := if endpoint.data.getLast? = some '/' then endpoint
    else endpoint ++ "/"
  if r.containerName = "" then
    if r.objectName ≠ "" then .error .noContainerName
    else .ok (addQuery p values)
  else
    if r.containerName.data.contains '/' then .error .malformedContainerName
    else .ok (addQuery (p ++ r.containerName ++ "/" ++ r.objectName) values)

/-- Query values taken from the request options (`nil` options mean no
values), as read at the top of `Request.Do`. -/
def requestValues (r : GoRequest) : List (String × String) :=
  match r.options with
  | some o => o.values
  | none => []

/-- Result of `Request.Do`. -/
inductive DoResult
  | success (resp : HTTPResponse)
  | schwiftErr (e : SchwiftError)
  | transportErr
  | unexpectedStatus (expected : List Nat) (resp : HTTPResponse)
      (body : List Nat)
deriving DecidableEq

/-- Embedding of `Request.Do` (src/request.go).  Bodies are pure byte
lists, so draining and collecting cannot fail; on an unexpected status the
collected body is carried in the error. -/
def requestDo (client : ClientModel) (r : GoRequest) : DoResult :=
  match requestURL client.endpointURLStr r (requestValues r) with
  | .error e => .schwiftErr e
  | .ok uri =>
    match client.respond r.method uri with
    | none => .transportErr
    | some resp =>
      if r.expectStatusCodes = [] then .success resp
      else if r.expectStatusCodes.contains resp.statusCode then .success resp
      else .unexpectedStatus r.expectStatusCodes resp resp.body

/-- C8: the request envelope fails with the missing-container-name error
when an object name is given without a container name, fails with the
malformed-container-name error when the container name contains a slash,
and when the transport returns a status outside a non-empty expected set it
returns an unexpected-status error carrying the expected set, the response,
and the collected body bytes. -/
theorem c8_request_envelope_errors (client : ClientModel) (r : GoRequest) :
    (r.containerName = "" → r.objectName ≠ "" →
      requestDo client r = .schwiftErr .noContainerName) ∧
    (r.containerName.data.contains '/' = true →
      requestDo client r = .schwiftErr .malformedContainerName) ∧
    (∀ uri resp,
      requestURL client.endpointURLStr r (requestValues r) = .ok uri →
      client.respond r.method uri = some resp →
      r.expectStatusCodes ≠ [] →
      ¬ r.expectStatusCodes.contains resp.statusCode →
      requestDo client r =
        .unexpectedStatus r.expectStatusCodes resp resp.body) := by
  refine ⟨?_, ?_, ?_⟩
  · intro hc ho
    unfold requestDo requestURL
    rw [hc]
    simp [ho]
  · intro hs
    have hc : ¬ r.containerName = "" := by
      intro hc
      rw [hc] at hs
      exact absurd hs (by decide)
    have hs' : '/' ∈ r.containerName.data := by simpa using hs
    unfold requestDo requestURL
    simp [hc, hs']
  · intro uri resp hurl hresp hne hnc
    unfold requestDo
    simp only [hurl, hresp]
    rw [if_neg hne, if_neg hnc]

/-- C8 witness: the three error paths on concrete requests against a
concrete client that always answers 500 with body `[1, 2]`. -/
theorem c8_request_envelope_errors_witness :
    requestDo ⟨"https://ep/v1/AUTH_x/", fun _ _ => some ⟨500, [1, 2]⟩⟩
        { objectName := "o" } = .schwiftErr .noContainerName ∧
      requestDo ⟨"https://ep/v1/AUTH_x/", fun _ _ => some ⟨500, [1, 2]⟩⟩
        { containerName := "a/b" } = .schwiftErr .malformedContainerName ∧
      requestDo ⟨"https://ep/v1/AUTH_x/", fun _ _ => some ⟨500, [1, 2]⟩⟩
        { method := "GET", containerName := "c", objectName := "o",
          expectStatusCodes := [201] } =
        .unexpectedStatus [201] ⟨500, [1, 2]⟩ [1, 2] := by
  refine ⟨?_, ?_, ?_⟩
  · exact (c8_request_envelope_errors _ _).1 rfl (by decide)
  · exact (c8_request_envelope_errors _ _).2.1 (by decide)
  · exact (c8_request_envelope_errors _ _).2.2 "https://ep/v1/AUTH_x/c/o"
      ⟨500, [1, 2]⟩ rfl rfl (by decide) (by decide)

/-- Valid MIME header token bytes per Go textproto
(`validHeaderFieldByte`): ASCII letters, digits and a fixed special set. -/
def isTokenChar (c : Char) : Bool :=
  c.isAlphanum || "!#$%&'*+-.^_`|~".data.contains c

/-- Uppercase an ASCII letter, leave everything else unchanged. -/
def upcaseChar (c : Char) : Char :=
  if 'a' ≤ c ∧ c ≤ 'z' then Char.ofNat (c.toNat - 32) else c

/-- Lowercase an ASCII letter, leave everything else unchanged. -/
def downcaseChar (c : Char) : Char :=
  if 'A' ≤ c ∧ c ≤ 'Z' then Char.ofNat (c.toNat + 32) else c

/-- The casing loop of `textproto.CanonicalMIMEHeaderKey`: uppercase after a
start of word or a `'-'`, lowercase otherwise. -/
def canonChars : Bool → List Char → List Char
  | _, [] => []
  | up, c :: cs =>
    let c' := if up then upcaseChar c else downcaseChar c
    c' :: canonChars (c' = '-') cs

/-- Embedding of `textproto.CanonicalMIMEHeaderKey`: keys with a byte that
is not a valid token byte are returned unchanged. -/
def canonicalMIMEHeaderKey (s : String) : String :=
  if s.data.all isTokenChar then ⟨canonChars true s.data⟩ else s

/-- Model of `http.Header.Set` on a header map represented as an
association list with unique keys: canonicalise the key, then replace the
first binding or append a new one. -/
def headerSet : List (String × String) → String → String →
    List (String × String)
  | [], k, v => [(canonicalMIMEHeaderKey k, v)]
  | p :: t, k, v =>
    if p.1 = canonicalMIMEHeaderKey k then (p.1, v) :: t
    else p :: headerSet t k v

/-- Model of `http.Header.Get`. -/
def headerGet (h : List (String × String)) (k : String) : Option String :=
  (h.find? (fun p => p.1 = canonicalMIMEHeaderKey k)).map (·.2)

theorem headerGet_headerSet (h : List (String × String)) (k' k v : String) :
    headerGet (headerSet h k v) k' =
      if canonicalMIMEHeaderKey k' = canonicalMIMEHeaderKey k then some v
      else headerGet h k' := by
  induction h with
  | nil =>
    by_cases hck : canonicalMIMEHeaderKey k' = canonicalMIMEHeaderKey k
    · rw [if_pos hck]
      show headerGet [(canonicalMIMEHeaderKey k, v)] k' = some v
      unfold headerGet
      rw [List.find?_cons_of_pos _ (by simp [hck.symm])]
      rfl
    · rw [if_neg hck]
      show headerGet [(canonicalMIMEHeaderKey k, v)] k' = headerGet [] k'
      unfold headerGet
      rw [List.find?_cons_of_neg _ (by simp; exact fun hq => hck hq.symm)]
  | cons p t ih =>
    show headerGet (if p.1 = canonicalMIMEHeaderKey k
      then (p.1, v) :: t else p :: headerSet t k v) k' = _
    by_cases hp : p.1 = canonicalMIMEHeaderKey k
    · rw [if_pos hp]
      by_cases hck : canonicalMIMEHeaderKey k' = canonicalMIMEHeaderKey k
      · rw [if_pos hck]
        unfold headerGet
        rw [List.find?_cons_of_pos _ (by simp [hp, hck.symm])]
        rfl
      · rw [if_neg hck]
        have hhead : ¬ (p.1 = canonicalMIMEHeaderKey k') := by
          rw [hp]
          exact fun hq => hck hq.symm
        unfold headerGet
        rw [List.find?_cons_of_neg _ (by simpa using hhead),
          List.find?_cons_of_neg _ (by simpa using hhead)]
    · rw [if_neg hp]
      by_cases hck : canonicalMIMEHeaderKey k' = canonicalMIMEHeaderKey k
      · rw [if_pos hck]
        have hhead : ¬ (p.1 = canonicalMIMEHeaderKey k') := by
          rw [hck]
          exact hp
        unfold headerGet
        rw [List.find?_cons_of_neg _ (by simpa using hhead)]
        have := ih
        rw [if_pos hck] at this
        exact this
      · rw [if_neg hck]
        by_cases hpk : p.1 = canonicalMIMEHeaderKey k'
        · unfold headerGet
          rw [List.find?_cons_of_pos _ (by simpa using hpk),
            List.find?_cons_of_pos _ (by simpa using hpk)]
        · unfold headerGet
          rw [List.find?_cons_of_neg _ (by simpa using hpk),
            List.find?_cons_of_neg _ (by simpa using hpk)]
          have := ih
          rw [if_neg hck] at this
          exact this

/-- One iteration of the `*Metadata` loop of `compileHeaders`
(src/headers.go): an empty value is sent as an empty header for account and
container metadata and skipped for object metadata; a non-empty value is
set under the scope's metadata prefix. -/
def metaStep (headerName : String) (hdr : List (String × String))
    (kv : String × String) : List (String × String) :=
  if kv.2 = "" then
    if headerName ≠ "X-Object-Meta-" then headerSet hdr (headerName ++ kv.1) ""
    else hdr
  else headerSet hdr (headerName ++ kv.1) kv.2

/-- The `*Metadata` branch of `compileHeaders` (src/headers.go): fold the
metadata entries into the outgoing header map.  (Go iterates a map in
arbitrary order; under the distinct-canonical-keys hypothesis used in the
theorems the resulting lookups are order-independent.) -/
def compileMetadata (headerName : String) (md : List (String × String)) :
    List (String × String) :=
  md.foldl (metaStep headerName) []

theorem headerGet_metaStep_other (pre : String) (hdr : List (String × String))
    (kv : String × String) (q : String)
    (hne : canonicalMIMEHeaderKey q ≠ canonicalMIMEHeaderKey (pre ++ kv.1)) :
    headerGet (metaStep pre hdr kv) q = headerGet hdr q := by
  unfold metaStep
  split_ifs <;> first
    | rw [headerGet_headerSet, if_neg hne]
    | rfl

theorem headerGet_foldl_untouched (pre : String)
    (md : List (String × String)) (hdr : List (String × String)) (q : String)
    (h : ∀ kv ∈ md,
      canonicalMIMEHeaderKey q ≠ canonicalMIMEHeaderKey (pre ++ kv.1)) :
    headerGet (md.foldl (metaStep pre) hdr) q = headerGet hdr q := by
  induction md generalizing hdr with
  | nil => rfl
  | cons kv rest ih =>
    rw [List.foldl_cons, ih _ (fun kv' hm => h kv' (List.mem_cons_of_mem _ hm)),
      headerGet_metaStep_other pre hdr kv q (h kv (List.mem_cons_self _ _))]

theorem headerGet_compileMetadataAux (pre : String)
    (md : List (String × String)) (hdr : List (String × String))
    (k v : String) (hmem : (k, v) ∈ md)
    (hnd : (md.map (fun kv => canonicalMIMEHeaderKey (pre ++ kv.1))).Nodup) :
    headerGet (md.foldl (metaStep pre) hdr) (pre ++ k) =
      if v = "" then
        if pre ≠ "X-Object-Meta-" then some ""
        else headerGet hdr (pre ++ k)
      else some v := by
  induction md generalizing hdr with
  | nil => cases hmem
  | cons kv0 rest ih =>
    rw [List.map_cons, List.nodup_cons] at hnd
    rcases List.mem_cons.mp hmem with heq | hmem'
    · subst heq
      rw [List.foldl_cons,
        headerGet_foldl_untouched pre rest (metaStep pre hdr (k, v)) (pre ++ k)
          (fun kv' hm hq => hnd.1 (hq ▸ List.mem_map_of_mem _ hm))]
      unfold metaStep
      by_cases hv : v = ""
      · rw [if_pos hv]
        by_cases hobj : pre ≠ "X-Object-Meta-"
        · rw [if_pos hobj, if_pos hv, if_pos hobj, headerGet_headerSet,
            if_pos rfl]
        · rw [if_neg hobj, if_pos hv, if_neg hobj]
      · rw [if_neg hv, if_neg hv, headerGet_headerSet, if_pos rfl]
    · have hkne : canonicalMIMEHeaderKey (pre ++ k) ≠
          canonicalMIMEHeaderKey (pre ++ kv0.1) := by
        intro hq
        exact hnd.1 (hq ▸ List.mem_map_of_mem _ hmem')
      rw [List.foldl_cons, ih _ hmem' hnd.2]
      by_cases hv : v = ""
      · by_cases hobj : pre ≠ "X-Object-Meta-"
        · rw [if_pos hv, if_pos hobj, if_pos hv, if_pos hobj]
        · rw [if_pos hv, if_neg hobj, if_pos hv, if_neg hobj,
            headerGet_metaStep_other pre hdr kv0 (pre ++ k) hkne]
      · rw [if_neg hv, if_neg hv]

/-- `compileHeaders` on `AccountHeaders` (src/headers.go): the only
read-write field is `Metadata`, tagged `X-Account-Meta-`; read-only fields
are skipped. -/
def compileAccountMetadata (md : List (String × String)) :
    List (String × String) :=
  compileMetadata "X-Account-Meta-" md

/-- `compileHeaders` on `ContainerHeaders` (src/headers.go): the only
read-write field is `Metadata`, tagged `X-Container-Meta-`. -/
def compileContainerMetadata (md : List (String × String)) :
    List (String × String) :=
  compileMetadata "X-Container-Meta-" md

/-- Modelled from the spec: the `ObjectHeaders` struct itself is not among
the source files, but `compileHeaders` (src/headers.go) keys the
empty-value omission rule on the header prefix `X-Object-Meta-`, which the
spec (§6) gives as the object metadata prefix. -/
def compileObjectMetadata (md : List (String × String)) :
    List (String × String) :=
  compileMetadata "X-Object-Meta-" md

/-- C9: a metadata entry whose value is the empty string is sent with an
empty value for account and container metadata (the server treats that as
a delete), but is omitted entirely from the compiled headers for object
metadata; a non-empty value is always sent under the scope's metadata
prefix. -/
theorem c9_metadata_delete_semantics (md : List (String × String))
    (k v : String) (hmem : (k, v) ∈ md)
    (hndA : (md.map
      (fun kv => canonicalMIMEHeaderKey ("X-Account-Meta-" ++ kv.1))).Nodup)
    (hndC : (md.map
      (fun kv => canonicalMIMEHeaderKey ("X-Container-Meta-" ++ kv.1))).Nodup)
    (hndO : (md.map
      (fun kv => canonicalMIMEHeaderKey ("X-Object-Meta-" ++ kv.1))).Nodup) :
    (v = "" →
      headerGet (compileAccountMetadata md) ("X-Account-Meta-" ++ k) =
          some "" ∧
        headerGet (compileContainerMetadata md) ("X-Container-Meta-" ++ k) =
          some "" ∧
        headerGet (compileObjectMetadata md) ("X-Object-Meta-" ++ k) =
          none) ∧
    (v ≠ "" →
      headerGet (compileAccountMetadata md) ("X-Account-Meta-" ++ k) =
          some v ∧
        headerGet (compileContainerMetadata md) ("X-Container-Meta-" ++ k) =
          some v ∧
        headerGet (compileObjectMetadata md) ("X-Object-Meta-" ++ k) =
          some v) := by
  have hA := headerGet_compileMetadataAux "X-Account-Meta-" md [] k v hmem hndA
  have hC := headerGet_compileMetadataAux "X-Container-Meta-" md [] k v hmem
    hndC
  have hO := headerGet_compileMetadataAux "X-Object-Meta-" md [] k v hmem hndO
  constructor
  · intro hv
    subst hv
    rw [if_pos rfl, if_pos (by decide)] at hA hC
    rw [if_pos rfl, if_neg (by simp)] at hO
    exact ⟨hA, hC, by rw [compileObjectMetadata, compileMetadata, hO]; rfl⟩
  · intro hv
    rw [if_neg hv] at hA hC hO
    exact ⟨hA, hC, hO⟩

/-- C9 witness: the scope-dependent delete semantics on the concrete
metadata map `[("Color", "blue"), ("Flavor", "")]`. -/
theorem c9_metadata_delete_semantics_witness :
    headerGet (compileAccountMetadata [("Color", "blue"), ("Flavor", "")])
        "X-Account-Meta-Flavor" = some "" ∧
      headerGet (compileObjectMetadata [("Color", "blue"), ("Flavor", "")])
        "X-Object-Meta-Flavor" = none ∧
      headerGet (compileObjectMetadata [("Color", "blue"), ("Flavor", "")])
        "X-Object-Meta-Color" = some "blue" := by
  have h1 := c9_metadata_delete_semantics [("Color", "blue"), ("Flavor", "")]
    "Flavor" "" (by decide) (by decide) (by decide) (by decide)
  have h2 := c9_metadata_delete_semantics [("Color", "blue"), ("Flavor", "")]
    "Color" "blue" (by decide) (by decide) (by decide) (by decide)
  exact ⟨(h1.1 rfl).1, (h1.1 rfl).2.2, (h2.2 (by decide)).2.2⟩

/-- Embedding of the regex `^(.*?)([0-9]+$)` of `splitSegmentIndexRx`
(src/largeobject.go).  `^` and `$` anchor the match to the whole name, so
group 2 is a non-empty all-digit suffix and group 1 the rest; the lazy
first group makes group 2 the maximal trailing run of decimal digits.
Go's `.` does not match a newline, and every newline of the name lies in
group 1 (a digit run cannot contain one), so a name containing `'\n'`
never matches; neither does a name not ending in a digit. -/
def splitSegmentIndex (s : String) : Option (String × String) :=
  if s.data.reverse.takeWhile (·.isDigit) = [] ∨ '\n' ∈ s.data then none
  else some (⟨(s.data.reverse.dropWhile (·.isDigit)).reverse⟩,
    ⟨(s.data.reverse.takeWhile (·.isDigit)).reverse⟩)

/-- `initialIndex` (src/largeobject.go). -/
def initialIndex : String := "0000000000000001"

/-- Go's `fmt.Sprintf` with format `%0<width>d`: decimal digits left-padded
with zeros to at least `width` characters. -/
def padZeroDec (width n : Nat) : List Char :=
  List.replicate (width - (natDecChars n).length) '0' ++ natDecChars n

/-- Embedding of `nextSegmentName` (src/largeobject.go).  Go's
`ParseUint(idxStr, 10, 64)` errors exactly when the digit run's value is
`≥ 2^64`, and the code also treats `MaxUint64` itself as overflow, so the
overflow branch fires exactly for values `≥ 2^64 - 1`. -/
def nextSegmentName (s : String) : String :=
  match splitSegmentIndex s with
  | none => s ++ initialIndex
  | some (base, idxStr) =>
    if 2 ^ 64 - 1 ≤ digitsVal idxStr.data then s ++ "-" ++ initialIndex
    else base ++ ⟨padZeroDec idxStr.data.length (digitsVal idxStr.data + 1)⟩

example : nextSegmentName "segment0001" = "segment0002" := by decide
example : nextSegmentName "seg9999" = "seg10000" := by decide
example : nextSegmentName "first" = "first0000000000000001" := by decide
example : nextSegmentName "a18446744073709551615"
    = "a18446744073709551615-0000000000000001" := by decide
example : nextSegmentName "" = "0000000000000001" := by decide

/-- The scan at the top of `NextSegmentObject` (src/largeobject.go): the
name of the last object-backed segment lying in the working segment
container under the working name stem, or `""` when there is none. -/
def prevSegmentName (sc : Container) (pfx : String)
    (segs : List SegmentInfo) : String :=
  segs.foldl (fun acc s =>
    match s.object with
    | none => acc
    | some o =>
      if sc.isEqualTo o.c && pfx.data.isPrefixOf o.name.data then o.name
      else acc) ""

/-- Embedding of the name computed by `NextSegmentObject`
(src/largeobject.go); the returned object handle lives in the working
segment container under this name. -/
def nextSegmentObjectName (sc : Container) (pfx : String)
    (segs : List SegmentInfo) : String :=
  let prev := prevSegmentName sc pfx segs
  if prev = "" then pfx ++ initialIndex else nextSegmentName prev

/-- Spec-side selection predicate: the name contributed by a segment that
is object-backed, lies in the working segment container, and whose name
starts with the working stem. -/
def qualifyingName (sc : Container) (pfx : String) (s : SegmentInfo) :
    Option String :=
  match s.object with
  | none => none
  | some o =>
    if sc.isEqualTo o.c && pfx.data.isPrefixOf o.name.data then some o.name
    else none

theorem getLastD_cons (n : String) (l : List String) (acc : String) :
    ((n :: l).getLast?).getD acc = (l.getLast?).getD n := by
  cases l with
  | nil => rfl
  | cons m t =>
    rw [List.getLast?_cons_cons]
    obtain ⟨x, hx⟩ := Option.isSome_iff_exists.mp
      (List.getLast?_isSome.mpr (List.cons_ne_nil m t))
    rw [hx]
    rfl

theorem foldl_getD_filterMap (q : SegmentInfo → Option String)
    (segs : List SegmentInfo) (acc : String) :
    segs.foldl (fun a s => (q s).getD a) acc =
      ((segs.filterMap q).getLast?).getD acc := by
  induction segs generalizing acc with
  | nil => rfl
  | cons s rest ih =>
    rw [List.foldl_cons, ih, List.filterMap_cons]
    cases hq : q s with
    | none => rfl
    | some n => rw [Option.getD_some, getLastD_cons]

/-- The fold in `NextSegmentObject` selects the name of the last qualifying
segment. -/
theorem prevSegmentName_eq_lastQualifying (sc : Container) (pfx : String)
    (segs : List SegmentInfo) :
    prevSegmentName sc pfx segs =
      ((segs.filterMap (qualifyingName sc pfx)).getLast?).getD "" := by
  have hstep : (fun (acc : String) (s : SegmentInfo) =>
      match s.object with
      | none => acc
      | some o =>
        if sc.isEqualTo o.c && pfx.data.isPrefixOf o.name.data then o.name
        else acc) =
      fun acc s => (qualifyingName sc pfx s).getD acc := by
    funext acc s
    unfold qualifyingName
    cases s.object with
    | none => rfl
    | some o =>
      by_cases hc : (sc.isEqualTo o.c && pfx.data.isPrefixOf o.name.data) =
        true <;> simp [hc]
  unfold prevSegmentName
  rw [hstep, foldl_getD_filterMap]

theorem char_toNat_inj {c d : Char} (h : c.toNat = d.toNat) : c = d := by
  rw [← Char.ofNat_toNat c, ← Char.ofNat_toNat d, h]

theorem uint32_le_toNat (a b : UInt32) : a ≤ b ↔ a.toNat ≤ b.toNat := by
  rw [UInt32.le_def]
  rfl

theorem uint32_lt_toNat (a b : UInt32) : a < b ↔ a.toNat < b.toNat := by
  rw [UInt32.lt_def]
  rfl

theorem isDigit_bounds {c : Char} (h : c.isDigit = true) :
    48 ≤ c.toNat ∧ c.toNat ≤ 57 := by
  simp [Char.isDigit] at h
  exact ⟨(uint32_le_toNat 48 c.val).mp h.1, (uint32_le_toNat c.val 57).mp h.2⟩

theorem dval_le_nine {c : Char} (h : c.isDigit = true) : dval c ≤ 9 := by
  have := isDigit_bounds h
  unfold dval
  omega

theorem char_lt_of_dval_lt {c d : Char} (hc : c.isDigit = true)
    (hd : d.isDigit = true) (h : dval c < dval d) : c < d := by
  have hcb := isDigit_bounds hc
  have hdb := isDigit_bounds hd
  rw [Char.lt_def, uint32_lt_toNat]
  show c.toNat < d.toNat
  unfold dval at h
  omega

theorem char_eq_of_dval_eq {c d : Char} (hc : c.isDigit = true)
    (hd : d.isDigit = true) (h : dval c = dval d) : c = d := by
  have hcb := isDigit_bounds hc
  have hdb := isDigit_bounds hd
  apply char_toNat_inj
  unfold dval at h
  omega

theorem digitsVal_foldl_acc (l : List Char) (a : Nat) :
    l.foldl (fun acc c => 10 * acc + dval c) a =
      a * 10 ^ l.length + digitsVal l := by
  induction l generalizing a with
  | nil => simp [digitsVal]
  | cons c t ih =>
    rw [List.foldl_cons, ih]
    have h2 : digitsVal (c :: t) = (dval c) * 10 ^ t.length + digitsVal t := by
      show List.foldl _ _ (c :: t) = _
      rw [List.foldl_cons, ih]
      ring_nf
    rw [h2]
    simp [List.length_cons]
    ring

theorem digitsVal_cons (c : Char) (l : List Char) :
    digitsVal (c :: l) = dval c * 10 ^ l.length + digitsVal l := by
  show List.foldl _ _ (c :: l) = _
  rw [List.foldl_cons, digitsVal_foldl_acc]
  ring_nf

theorem digitsVal_lt_pow (l : List Char) (h : ∀ c ∈ l, c.isDigit = true) :
    digitsVal l < 10 ^ l.length := by
  induction l with
  | nil => simp [digitsVal]
  | cons c t ih =>
    rw [digitsVal_cons, List.length_cons, pow_succ]
    have h9 : dval c ≤ 9 := dval_le_nine (h c (List.mem_cons_self _ _))
    have ht := ih (fun c' hm => h c' (List.mem_cons_of_mem _ hm))
    nlinarith [pow_pos (by norm_num : (0:Nat) < 10) t.length]

theorem digitsVal_replicate_zero (k : Nat) (l : List Char) :
    digitsVal (List.replicate k '0' ++ l) = digitsVal l := by
  induction k with
  | zero => rfl
  | succ n ih =>
    rw [List.replicate_succ, List.cons_append, digitsVal_cons, ih]
    have : dval '0' = 0 := by decide
    rw [this]
    ring_nf

theorem lex_append_left {r : Char → Char → Prop} (xs l1 l2 : List Char)
    (h : List.Lex r l1 l2) : List.Lex r (xs ++ l1) (xs ++ l2) := by
  induction xs with
  | nil => exact h
  | cons c t ih => exact List.Lex.cons ih

theorem lex_prefix_cons {r : Char → Char → Prop} (l : List Char) (c : Char)
    (cs : List Char) : List.Lex r l (l ++ c :: cs) := by
  induction l with
  | nil => exact List.Lex.nil
  | cons x t ih => exact List.Lex.cons ih

theorem lex_append_nonempty {r : Char → Char → Prop} (l t : List Char)
    (ht : t ≠ []) : List.Lex r l (l ++ t) := by
  cases t with
  | nil => exact absurd rfl ht
  | cons c cs => exact lex_prefix_cons l c cs

theorem digit_lex (l1 l2 : List Char) (hlen : l1.length = l2.length)
    (h1 : ∀ c ∈ l1, c.isDigit = true) (h2 : ∀ c ∈ l2, c.isDigit = true)
    (hv : digitsVal l1 < digitsVal l2) : List.Lex (· < ·) l1 l2 := by
  induction l1 generalizing l2 with
  | nil =>
    cases l2 with
    | nil => exact absurd hv (by simp [digitsVal])
    | cons d u => cases hlen
  | cons c t ih =>
    cases l2 with
    | nil => cases hlen
    | cons d u =>
      have hlen' : t.length = u.length := by
        simpa using hlen
      have hcd := h1 c (List.mem_cons_self _ _)
      have hdd := h2 d (List.mem_cons_self _ _)
      have ht := fun c' hm => h1 c' (List.mem_cons_of_mem _ hm)
      have hu := fun c' hm => h2 c' (List.mem_cons_of_mem _ hm)
      rcases lt_trichotomy (dval c) (dval d) with hlt | heq | hgt
      · exact List.Lex.rel (char_lt_of_dval_lt hcd hdd hlt)
      · have hceq : c = d := char_eq_of_dval_eq hcd hdd heq
        subst hceq
        have hv' : digitsVal t < digitsVal u := by
          rw [digitsVal_cons, digitsVal_cons, hlen'] at hv
          omega
        exact List.Lex.cons (ih u hlen' ht hu hv')
      · exfalso
        rw [digitsVal_cons, digitsVal_cons, hlen'] at hv
        have hb1 := digitsVal_lt_pow u hu
        nlinarith [pow_pos (by norm_num : (0:Nat) < 10) u.length]

theorem takeWhile_append_all (p : Char → Bool) (l1 l2 : List Char)
    (h : ∀ c ∈ l1, p c = true) :
    (l1 ++ l2).takeWhile p = l1 ++ l2.takeWhile p := by
  induction l1 with
  | nil => rfl
  | cons c t ih =>
    rw [List.cons_append, List.takeWhile_cons,
      if_pos (h c (List.mem_cons_self _ _)), List.cons_append,
      ih (fun c' hm => h c' (List.mem_cons_of_mem _ hm))]

theorem dropWhile_append_all (p : Char → Bool) (l1 l2 : List Char)
    (h : ∀ c ∈ l1, p c = true) :
    (l1 ++ l2).dropWhile p = l2.dropWhile p := by
  induction l1 with
  | nil => rfl
  | cons c t ih =>
    rw [List.cons_append, List.dropWhile_cons,
      if_pos (h c (List.mem_cons_self _ _)),
      ih (fun c' hm => h c' (List.mem_cons_of_mem _ hm))]

theorem takeWhile_eq_nil_of_head (p : Char → Bool) (l : List Char)
    (h : ∀ c, l.head? = some c → p c = false) : l.takeWhile p = [] := by
  cases l with
  | nil => rfl
  | cons c t => rw [List.takeWhile_cons, if_neg (by simp [h c rfl])]

theorem dropWhile_eq_self_of_head (p : Char → Bool) (l : List Char)
    (h : ∀ c, l.head? = some c → p c = false) : l.dropWhile p = l := by
  cases l with
  | nil => rfl
  | cons c t => rw [List.dropWhile_cons, if_neg (by simp [h c rfl])]

theorem dropWhile_head_false (p : Char → Bool) (l : List Char) (c : Char)
    (cs : List Char) (h : l.dropWhile p = c :: cs) : p c = false := by
  induction l generalizing cs with
  | nil => cases h
  | cons x t ih =>
    rw [List.dropWhile_cons] at h
    by_cases hx : p x = true
    · rw [if_pos hx] at h
      exact ih cs h
    · rw [if_neg hx] at h
      cases h
      simpa using hx

theorem splitSegmentIndex_some {s b d : String}
    (h : splitSegmentIndex s = some (b, d)) :
    s.data = b.data ++ d.data ∧ d.data ≠ [] ∧
      (∀ c ∈ d.data, c.isDigit = true) ∧
      (∀ c, b.data.getLast? = some c → c.isDigit = false) ∧
      '\n' ∉ s.data := by
  unfold splitSegmentIndex at h
  by_cases hcond : s.data.reverse.takeWhile (·.isDigit) = [] ∨ '\n' ∈ s.data
  · rw [if_pos hcond] at h
    cases h
  · rw [if_neg hcond] at h
    push_neg at hcond
    obtain ⟨hds, hnl⟩ := hcond
    have hb : b = ⟨(s.data.reverse.dropWhile (·.isDigit)).reverse⟩ := by
      cases h
      rfl
    have hd : d = ⟨(s.data.reverse.takeWhile (·.isDigit)).reverse⟩ := by
      cases h
      rfl
    subst hb hd
    refine ⟨?_, by simpa using hds, ?_, ?_, hnl⟩
    · show s.data = (s.data.reverse.dropWhile (·.isDigit)).reverse ++
        (s.data.reverse.takeWhile (·.isDigit)).reverse
      rw [← List.reverse_append, List.takeWhile_append_dropWhile,
        List.reverse_reverse]
    · intro c hc
      exact List.mem_takeWhile_imp (List.mem_reverse.mp hc)
    · intro c hc
      show c.isDigit = false
      rw [show ((⟨(s.data.reverse.dropWhile (·.isDigit)).reverse⟩ :
          String)).data = (s.data.reverse.dropWhile (·.isDigit)).reverse
          from rfl, List.getLast?_reverse] at hc
      obtain ⟨cs, hcs⟩ : ∃ cs,
          s.data.reverse.dropWhile (·.isDigit) = c :: cs := by
        cases hrest : s.data.reverse.dropWhile (·.isDigit) with
        | nil => rw [hrest] at hc; cases hc
        | cons x xs =>
          rw [hrest] at hc
          cases hc
          exact ⟨xs, rfl⟩
      exact dropWhile_head_false _ _ _ _ hcs

theorem splitSegmentIndex_none_cases {s : String}
    (h : splitSegmentIndex s = none) :
    '\n' ∈ s.data ∨ ∀ c, s.data.getLast? = some c → c.isDigit = false := by
  unfold splitSegmentIndex at h
  by_cases hnl : '\n' ∈ s.data
  · exact Or.inl hnl
  · refine Or.inr ?_
    by_cases hds : s.data.reverse.takeWhile (·.isDigit) = []
    · intro c hc
      have hc' : s.data.reverse.head? = some c := by
        rw [List.head?_reverse]
        exact hc
      cases hrev : s.data.reverse with
      | nil => rw [hrev] at hc'; cases hc'
      | cons x xs =>
        rw [hrev] at hc' hds
        rw [List.takeWhile_cons] at hds
        cases hc'
        by_cases hx : c.isDigit = true
        · rw [if_pos hx] at hds
          cases hds
        · simpa using hx
    · rw [if_neg (by
        rintro (h1 | h2)
        · exact hds h1
        · exact hnl h2)] at h
      cases h

theorem splitSegmentIndex_append (b d : String) (hd : d.data ≠ [])
    (hdig : ∀ c ∈ d.data, c.isDigit = true)
    (hb : ∀ c, b.data.getLast? = some c → c.isDigit = false)
    (hnl : '\n' ∉ b.data) :
    splitSegmentIndex (b ++ d) = some (b, d) := by
  have hbrev : ∀ c, b.data.reverse.head? = some c → c.isDigit = false := by
    intro c hc
    apply hb
    rw [← List.head?_reverse]
    exact hc
  unfold splitSegmentIndex
  rw [String.data_append, List.reverse_append,
    takeWhile_append_all _ _ _ (fun c hm => hdig c (List.mem_reverse.mp hm)),
    takeWhile_eq_nil_of_head _ _ hbrev,
    dropWhile_append_all _ _ _ (fun c hm => hdig c (List.mem_reverse.mp hm)),
    dropWhile_eq_self_of_head _ _ hbrev, List.append_nil]
  rw [if_neg (by
    rintro (h1 | h2)
    · exact (by simpa using hd : ¬ d.data.reverse = []) h1
    · rcases List.mem_append.mp h2 with hm | hm
      · exact hnl hm
      · have := hdig _ hm
        simp at this)]
  rw [List.reverse_reverse, List.reverse_reverse]

theorem padZeroDec_length (w n : Nat) :
    (padZeroDec w n).length = max w (natDecChars n).length := by
  simp [padZeroDec]
  omega

theorem padZeroDec_all_digit (w n : Nat) :
    ∀ c ∈ padZeroDec w n, c.isDigit = true := by
  intro c hc
  rcases List.mem_append.mp hc with hm | hm
  · rw [List.eq_of_mem_replicate hm]
    decide
  · exact List.all_eq_true.mp (natDecChars_all_digit n) c hm

theorem padZeroDec_val (w n : Nat) : digitsVal (padZeroDec w n) = n := by
  rw [padZeroDec, digitsVal_replicate_zero, digitsVal_natDecChars]

/-- Decidable form of "the name does not end in a decimal digit". -/
def lastIsNotDigit (l : List Char) : Bool :=
  match l.getLast? with
  | none => true
  | some c => !c.isDigit

theorem lastIsNotDigit_spec {l : List Char} (h : lastIsNotDigit l = true) :
    ∀ c, l.getLast? = some c → c.isDigit = false := by
  intro c hc
  unfold lastIsNotDigit at h
  rw [hc] at h
  simpa using h

theorem lastIsNotDigit_of_spec {l : List Char}
    (h : ∀ c, l.getLast? = some c → c.isDigit = false) :
    lastIsNotDigit l = true := by
  unfold lastIsNotDigit
  cases hg : l.getLast? with
  | none => rfl
  | some c => simp [h c hg]

/-- C4: the next segment object name is computed from the last object-backed
segment lying in the working segment container under the working name stem:
a newline-free name decomposed as `b ++ d` with `d` a non-empty maximal
trailing digit run has the run incremented in place, preserving its width
via zero-padding (`…0001 → …0002`, `…9999 → …10000`); on numeric overflow
of the run (value `≥ 2^64 - 1`) `-0000000000000001` is appended to the
whole name; a name with no trailing digit gets `0000000000000001` appended
— as does a name containing a newline, because `.` in Go's
`^(.*?)([0-9]+$)` does not match `\n`, so such names never match the regex;
and when no qualifying previous segment exists the name is the working stem
followed by `0000000000000001`. -/
theorem c4_next_segment_naming (sc : Container) (pfx : String)
    (segs : List SegmentInfo) (b d : String) :
    prevSegmentName sc pfx segs =
      ((segs.filterMap (qualifyingName sc pfx)).getLast?).getD "" ∧
    (prevSegmentName sc pfx segs = "" →
      nextSegmentObjectName sc pfx segs = pfx ++ "0000000000000001") ∧
    (d.data ≠ [] → (∀ c ∈ d.data, c.isDigit = true) →
      lastIsNotDigit b.data = true → '\n' ∉ b.data →
      digitsVal d.data < 2 ^ 64 - 1 →
      nextSegmentName (b ++ d) =
        b ++ ⟨padZeroDec d.data.length (digitsVal d.data + 1)⟩) ∧
    (d.data ≠ [] → (∀ c ∈ d.data, c.isDigit = true) →
      lastIsNotDigit b.data = true → '\n' ∉ b.data →
      2 ^ 64 - 1 ≤ digitsVal d.data →
      nextSegmentName (b ++ d) = (b ++ d) ++ "-" ++ "0000000000000001") ∧
    (lastIsNotDigit b.data = true →
      nextSegmentName b = b ++ "0000000000000001") ∧
    ('\n' ∈ b.data →
      nextSegmentName b = b ++ "0000000000000001") ∧
    (prevSegmentName sc pfx segs ≠ "" →
      nextSegmentObjectName sc pfx segs =
        nextSegmentName (prevSegmentName sc pfx segs)) := by
  refine ⟨prevSegmentName_eq_lastQualifying sc pfx segs,
    ?_, ?_, ?_, ?_, ?_, ?_⟩
  · intro hp
    unfold nextSegmentObjectName
    rw [if_pos hp]
    rfl
  · intro hd hdig hb hnl hv
    unfold nextSegmentName
    rw [splitSegmentIndex_append b d hd hdig (lastIsNotDigit_spec hb) hnl]
    show (if 2 ^ 64 - 1 ≤ digitsVal d.data then b ++ d ++ "-" ++ initialIndex
      else b ++ ⟨padZeroDec d.data.length (digitsVal d.data + 1)⟩) = _
    rw [if_neg (by omega)]
  · intro hd hdig hb hnl hv
    unfold nextSegmentName
    rw [splitSegmentIndex_append b d hd hdig (lastIsNotDigit_spec hb) hnl]
    show (if 2 ^ 64 - 1 ≤ digitsVal d.data then b ++ d ++ "-" ++ initialIndex
      else b ++ ⟨padZeroDec d.data.length (digitsVal d.data + 1)⟩) = _
    rw [if_pos hv]
    rfl
  · intro hb
    unfold nextSegmentName
    have hnone : splitSegmentIndex b = none := by
      unfold splitSegmentIndex
      rw [if_pos (Or.inl (takeWhile_eq_nil_of_head _ _ (fun c hc =>
        lastIsNotDigit_spec hb c (by rwa [← List.head?_reverse]))))]
    rw [hnone]
    rfl
  · intro hnl
    unfold nextSegmentName
    have hnone : splitSegmentIndex b = none := by
      unfold splitSegmentIndex
      rw [if_pos (Or.inr hnl)]
    rw [hnone]
    rfl
  · intro hp
    unfold nextSegmentObjectName
    rw [if_neg hp]

/-- C4 witness: width-preserving increment on `seg0001`, the
fresh-object case starting at the stem plus the initial index, and the
append on a newline-containing name (the regex never matches it). -/
theorem c4_next_segment_naming_witness :
    nextSegmentName ("seg" ++ "0001") =
      "seg" ++ ⟨padZeroDec "0001".data.length (digitsVal "0001".data + 1)⟩ ∧
    ("seg" ++ "0001" = ("seg0001" : String) ∧
      "seg" ++ (⟨padZeroDec "0001".data.length (digitsVal "0001".data + 1)⟩ :
        String) = "seg0002") ∧
    nextSegmentObjectName segCont0 "archive/" [] =
      "archive/" ++ "0000000000000001" ∧
    nextSegmentName "x\ny123" = "x\ny123" ++ "0000000000000001" := by
  refine ⟨?_, by decide, ?_, ?_⟩
  · exact (c4_next_segment_naming segCont0 "archive/" [] "seg" "0001").2.2.1
      (by decide) (by decide) (by decide) (by decide) (by decide)
  · exact (c4_next_segment_naming segCont0 "archive/" [] "seg" "0001").2.1 rfl
  · exact (c4_next_segment_naming segCont0 "archive/" [] "x\ny123"
      "0001").2.2.2.2.2.1 (by decide)

theorem string_ext {a b : String} (h : a.data = b.data) : a = b := by
  cases a
  cases b
  cases h
  rfl

/-- Trailing decimal index of a name (empty when there is none). -/
def segIndexDigits (s : String) : List Char :=
  match splitSegmentIndex s with
  | none => []
  | some (_, d) => d.data

/-- Part of a name before its trailing decimal index (the whole name when
there is no index). -/
def segIndexBase (s : String) : List Char :=
  match splitSegmentIndex s with
  | none => s.data
  | some (b, _) => b.data

/-- Key of a name under matching-width comparison: the base followed by the
trailing decimal index left-padded with zeros to width `w` (an absent index
counts as zero). -/
def mwKey (s : String) (w : Nat) : List Char :=
  segIndexBase s ++
    (List.replicate (w - (segIndexDigits s).length) '0' ++ segIndexDigits s)

/-- Matching-width comparison: compare lexicographically after padding both
trailing decimal indices to their common width. -/
def mwLt (s t : String) : Prop :=
  List.Lex (· < ·)
    (mwKey s (max (segIndexDigits s).length (segIndexDigits t).length))
    (mwKey t (max (segIndexDigits s).length (segIndexDigits t).length))

theorem segIndexDigits_of_split_some {s : String} {b d : String}
    (h : splitSegmentIndex s = some (b, d)) : segIndexDigits s = d.data := by
  unfold segIndexDigits
  rw [h]

theorem segIndexBase_of_split_some {s : String} {b d : String}
    (h : splitSegmentIndex s = some (b, d)) : segIndexBase s = b.data := by
  unfold segIndexBase
  rw [h]

theorem segIndexDigits_of_split_none {s : String}
    (h : splitSegmentIndex s = none) : segIndexDigits s = [] := by
  unfold segIndexDigits
  rw [h]

theorem segIndexBase_of_split_none {s : String}
    (h : splitSegmentIndex s = none) : segIndexBase s = s.data := by
  unfold segIndexBase
  rw [h]

theorem digit_run_long_of_overflow {d : List Char}
    (hdig : ∀ c ∈ d, c.isDigit = true) (hov : 2 ^ 64 - 1 ≤ digitsVal d) :
    16 ≤ d.length := by
  by_contra hshort
  push_neg at hshort
  have hlt := digitsVal_lt_pow d hdig
  have hpow : (10 : Nat) ^ d.length ≤ 10 ^ 15 :=
    Nat.pow_le_pow_right (by norm_num) (by omega)
  have : (10 : Nat) ^ 15 < 2 ^ 64 - 1 := by norm_num
  omega

/-- C6: the name produced by `nextSegmentName` is strictly greater than the
previous terminal segment name under matching-width comparison; whenever
the produced name has the same length as the previous name it is strictly
greater in ordinary lexicographic order, and in the two appending cases
(no trailing decimal index, or numeric overflow of the index) the produced
name strictly extends the previous one. -/
theorem c6_next_name_strictly_greater (s : String) :
    mwLt s (nextSegmentName s) ∧
    ((nextSegmentName s).length = s.length → s < nextSegmentName s) ∧
    ((splitSegmentIndex s = none ∨
        ∃ b d, splitSegmentIndex s = some (b, d) ∧
          2 ^ 64 - 1 ≤ digitsVal d.data) →
      ∃ u, u ≠ "" ∧ nextSegmentName s = s ++ u) := by
  cases hsp : splitSegmentIndex s with
  | none =>
    have hnext : nextSegmentName s = s ++ initialIndex := by
      unfold nextSegmentName
      rw [hsp]
    by_cases hnl : '\n' ∈ s.data
    · -- a newline-containing name never matches the regex, nor does its
      -- extension by the initial index: both keys are the raw names
      have hsplitT : splitSegmentIndex (s ++ initialIndex) = none := by
        unfold splitSegmentIndex
        rw [if_pos (Or.inr (by
          rw [String.data_append]
          exact List.mem_append_left _ hnl))]
      refine ⟨?_, ?_, ?_⟩
      · unfold mwLt mwKey
        rw [hnext, segIndexDigits_of_split_none hsp,
          segIndexBase_of_split_none hsp,
          segIndexDigits_of_split_none hsplitT,
          segIndexBase_of_split_none hsplitT]
        simp only [List.length_nil, Nat.max_self, Nat.sub_self,
          List.replicate_zero, List.nil_append, List.append_nil]
        rw [String.data_append]
        exact lex_append_nonempty _ _ (by decide)
      · intro hlen
        rw [hnext, String.length_append] at hlen
        exact absurd hlen (by
          have : initialIndex.length = 16 := by decide
          omega)
      · intro _
        exact ⟨initialIndex, by decide, hnext⟩
    · have hlast : ∀ c, s.data.getLast? = some c → c.isDigit = false := by
        rcases splitSegmentIndex_none_cases hsp with h | h
        · exact absurd h hnl
        · exact h
      have hsplitT : splitSegmentIndex (s ++ initialIndex) =
          some (s, initialIndex) :=
        splitSegmentIndex_append s initialIndex (by decide) (by decide)
          hlast hnl
      refine ⟨?_, ?_, ?_⟩
      · unfold mwLt mwKey
        rw [hnext, segIndexDigits_of_split_none hsp,
          segIndexBase_of_split_none hsp,
          segIndexDigits_of_split_some hsplitT,
          segIndexBase_of_split_some hsplitT]
        simp only [List.length_nil, Nat.zero_max, List.append_nil,
          Nat.sub_self, List.replicate_zero, List.nil_append, Nat.sub_zero]
        apply lex_append_left
        exact digit_lex _ _ (by decide) (by decide) (by decide) (by decide)
      · intro hlen
        rw [hnext, String.length_append] at hlen
        exact absurd hlen (by
          have : initialIndex.length = 16 := by decide
          omega)
      · intro _
        exact ⟨initialIndex, by decide, hnext⟩
  | some bd =>
    rcases bd with ⟨b, d⟩
    obtain ⟨hsd, hdne, hdig, hblast, hsnl⟩ := splitSegmentIndex_some hsp
    have hseq : s = b ++ d := string_ext (by rw [hsd, String.data_append])
    by_cases hov : 2 ^ 64 - 1 ≤ digitsVal d.data
    · -- numeric overflow: "-0000000000000001" is appended
      have hnext : nextSegmentName s = s ++ "-" ++ initialIndex := by
        unfold nextSegmentName
        rw [hsp]
        show (if 2 ^ 64 - 1 ≤ digitsVal d.data
          then s ++ "-" ++ initialIndex
          else b ++ ⟨padZeroDec d.data.length (digitsVal d.data + 1)⟩) = _
        rw [if_pos hov]
      have hdashLast : ∀ c, (s ++ "-").data.getLast? = some c →
          c.isDigit = false := by
        intro c hc
        rw [String.data_append, show ("-" : String).data = ['-'] from rfl,
          List.getLast?_concat] at hc
        cases hc
        decide
      have hdashNl : '\n' ∉ (s ++ "-").data := by
        rw [String.data_append]
        intro hm
        rcases List.mem_append.mp hm with hm | hm
        · exact hsnl hm
        · exact absurd hm (by decide)
      have hsplitT : splitSegmentIndex ((s ++ "-") ++ initialIndex) =
          some (s ++ "-", initialIndex) :=
        splitSegmentIndex_append (s ++ "-") initialIndex (by decide)
          (by decide) hdashLast hdashNl
      have hdlong : 16 ≤ d.data.length := digit_run_long_of_overflow hdig hov
      refine ⟨?_, ?_, ?_⟩
      · unfold mwLt mwKey
        rw [hnext, segIndexDigits_of_split_some hsp,
          segIndexBase_of_split_some hsp, segIndexDigits_of_split_some hsplitT,
          segIndexBase_of_split_some hsplitT]
        have hmax : max d.data.length (initialIndex.data).length =
            d.data.length := by
          have : (initialIndex.data).length = 16 := by decide
          omega
        rw [hmax, Nat.sub_self, List.replicate_zero, List.nil_append,
          String.data_append, show ("-" : String).data = ['-'] from rfl]
        have hkey : b.data ++ d.data = s.data := hsd.symm
        rw [hkey, List.append_assoc]
        exact lex_prefix_cons s.data '-' _
      · intro hlen
        rw [hnext, String.length_append, String.length_append] at hlen
        exact absurd hlen (by
          have h1 : initialIndex.length = 16 := by decide
          have h2 : ("-" : String).length = 1 := by decide
          omega)
      · intro _
        refine ⟨"-" ++ initialIndex, by decide, ?_⟩
        rw [hnext]
        apply string_ext
        rw [String.data_append, String.data_append, String.data_append,
          String.data_append, List.append_assoc]
    · -- ordinary increment, width preserved by zero-padding
      push_neg at hov
      have hnext : nextSegmentName s =
          b ++ ⟨padZeroDec d.data.length (digitsVal d.data + 1)⟩ := by
        unfold nextSegmentName
        rw [hsp]
        show (if 2 ^ 64 - 1 ≤ digitsVal d.data
          then s ++ "-" ++ initialIndex
          else b ++ ⟨padZeroDec d.data.length (digitsVal d.data + 1)⟩) = _
        rw [if_neg (by omega)]
      set pad := padZeroDec d.data.length (digitsVal d.data + 1) with hpad
      have hpadne : pad ≠ [] := by
        rw [hpad, padZeroDec]
        intro hnil
        exact natDecChars_ne_nil _ (List.append_eq_nil.mp hnil).2
      have hpaddig : ∀ c ∈ pad, c.isDigit = true := padZeroDec_all_digit _ _
      have hbnl : '\n' ∉ b.data := fun hm =>
        hsnl (by rw [hsd]; exact List.mem_append_left _ hm)
      have hsplitT : splitSegmentIndex (b ++ ⟨pad⟩) = some (b, ⟨pad⟩) :=
        splitSegmentIndex_append b ⟨pad⟩ hpadne hpaddig hblast hbnl
      have hpadlen : pad.length = max d.data.length
          (natDecChars (digitsVal d.data + 1)).length := by
        rw [hpad]
        exact padZeroDec_length _ _
      have hdlen : d.data.length ≤ pad.length := by
        rw [hpadlen]
        exact Nat.le_max_left _ _
      refine ⟨?_, ?_, ?_⟩
      · unfold mwLt mwKey
        rw [hnext, segIndexDigits_of_split_some hsp,
          segIndexBase_of_split_some hsp, segIndexDigits_of_split_some hsplitT,
          segIndexBase_of_split_some hsplitT]
        show List.Lex _ (b.data ++ _) (b.data ++ _)
        have hmax : max d.data.length (⟨pad⟩ : String).data.length =
            pad.length := by
          have hps : (⟨pad⟩ : String).data.length = pad.length := rfl
          rw [hps]
          exact Nat.max_eq_right hdlen
        rw [hmax, Nat.sub_self, List.replicate_zero, List.nil_append]
        apply lex_append_left
        apply digit_lex
        · rw [show (⟨pad⟩ : String).data = pad from rfl, List.length_append,
            List.length_replicate]
          omega
        · intro c hc
          rcases List.mem_append.mp hc with hm | hm
          · rw [List.eq_of_mem_replicate hm]
            decide
          · exact hdig c hm
        · exact hpaddig
        · rw [digitsVal_replicate_zero, hpad, padZeroDec_val]
          omega
      · intro hlen
        rw [hnext, String.length_append, hseq, String.length_append] at hlen
        have hlen2 : (⟨pad⟩ : String).length = pad.length := rfl
        have hdlen2 : d.length = d.data.length := rfl
        have hpl : pad.length = d.data.length := by omega
        rw [hnext, String.lt_iff_toList_lt]
        show s.data < (b ++ ⟨pad⟩).data
        rw [String.data_append, hsd]
        have hpd : (⟨pad⟩ : String).data = pad := rfl
        rw [hpd]
        show List.Lex (· < ·) (b.data ++ d.data) (b.data ++ pad)
        apply lex_append_left
        apply digit_lex
        · omega
        · exact hdig
        · exact hpaddig
        · rw [hpad, padZeroDec_val]
          omega
      · rintro (hnone | ⟨b', d', hbd, hov'⟩)
        · cases hnone
        · have hdd : d = d' := congrArg Prod.snd (Option.some.inj hbd)
          rw [← hdd] at hov'
          omega

/-- C6 witness: matching-width growth and ordinary lexicographic growth on
`seg0001`, and strict extension on the suffix-appending case `first`. -/
theorem c6_next_name_strictly_greater_witness :
    mwLt "seg0001" (nextSegmentName "seg0001") ∧
    ("seg0001" : String) < nextSegmentName "seg0001" ∧
    (∃ u, u ≠ "" ∧ nextSegmentName "first" = "first" ++ u) := by
  refine ⟨(c6_next_name_strictly_greater "seg0001").1, ?_, ?_⟩
  · exact (c6_next_name_strictly_greater "seg0001").2.1 (by decide)
  · exact (c6_next_name_strictly_greater "first").2.2 (Or.inl (by decide))

/-- Backtracking position of Go `path.Clean`'s `..` handling: starting at
write position `w`, decrement while `w > dotdot` and the byte at `w` is not
a slash. -/
def backtrackW (out : List Char) (dotdot : Nat) : Nat → Nat
  | 0 => 0
  | w + 1 =>
    if dotdot < w + 1 ∧ out.getD (w + 1) ' ' ≠ '/' then backtrackW out dotdot w
    else w + 1

/-- Main loop of Go `path.Clean` (lexical path normalisation).  `out` is the
output buffer in order, `dotdot` the write position up to which `..` may not
backtrack.  Fuel is the remaining input length plus one; every iteration
consumes at least one input character. -/
def cleanLoop (rooted : Bool) : Nat → List Char → List Char → Nat → List Char
  | 0, _, out, _ => out
  | _ + 1, [], out, _ => out
  | fuel + 1, c :: rest, out, dotdot =>
    if c = '/' then cleanLoop rooted fuel rest out dotdot
    else if c = '.' ∧ (rest = [] ∨ rest.head? = some '/') then
      cleanLoop rooted fuel rest out dotdot
    else if c = '.' ∧ rest.head? = some '.' ∧
        (rest.tail = [] ∨ rest.tail.head? = some '/') then
      if dotdot < out.length then
        cleanLoop rooted fuel rest.tail
          (out.take (backtrackW out dotdot (out.length - 1))) dotdot
      else if !rooted then
        let out2 := (if 0 < out.length then out ++ ['/'] else out) ++ ['.', '.']
        cleanLoop rooted fuel rest.tail out2 out2.length
      else cleanLoop rooted fuel rest.tail out dotdot
    else
      let out2 := if (rooted ∧ out.length ≠ 1) ∨ (¬rooted ∧ out.length ≠ 0)
        then out ++ ['/'] else out
      cleanLoop rooted fuel ((c :: rest).dropWhile (· ≠ '/'))
        (out2 ++ (c :: rest).takeWhile (· ≠ '/')) dotdot

/-- Embedding of Go `path.Clean`. -/
def goPathClean (p : String) : String :=
  if p.data = [] then "."
  else
    let rooted := p.data.head? = some '/'
    let res :=
      if rooted then
        cleanLoop true (p.data.length + 1) p.data.tail ['/'] 1
      else
        cleanLoop false (p.data.length + 1) p.data [] 0
    if res.length = 0 then "." else ⟨res⟩

/-- Embedding of Go `path.Dir`: keep everything up to and including the last
slash, then `Clean` it (trailing slashes are removed by `Clean`). -/
def goPathDir (p : String) : String :=
  goPathClean ⟨(p.data.reverse.dropWhile (· ≠ '/')).reverse⟩

example : goPathClean "foo/bar/" = "foo/bar" := by decide
example : goPathClean "/" = "/" := by decide
example : goPathClean "" = "." := by decide
example : goPathClean "a//b/../c" = "a/c" := by decide
example : goPathDir "foo/bar/000" = "foo/bar" := by decide
example : goPathDir "/a" = "/" := by decide
example : goPathDir "abc" = "." := by decide
example : goPathDir "foo/" = "foo" := by decide

/-- Container names of the object-backed segments, with multiplicity (the
contents of the `containerNames` tally in `asSLO`, src/largeobject.go). -/
def containerNameList (segs : List SegmentInfo) : List String :=
  segs.filterMap (fun s => s.object.map (fun o => o.c.name))

/-- Vote count of one container name. -/
def containerVotes (segs : List SegmentInfo) (n : String) : Nat :=
  (containerNameList segs).count n

/-- The distinct container names occurring among object-backed segments
(the key set of the `containerNames` map). -/
def voteNames (segs : List SegmentInfo) : List String :=
  (containerNameList segs).dedup

/-- A valid iteration order of the Go map `containerNames`: every distinct
key exactly once, in an arbitrary order.  (Go randomises map iteration
order, so `asSLO` must be modelled as a function of this order.) -/
def validVoteOrder (segs : List SegmentInfo) (order : List String) : Prop :=
  order.Nodup ∧ (∀ n ∈ order, n ∈ voteNames segs) ∧
    ∀ n ∈ voteNames segs, n ∈ order

/-- The majority-vote loop of `asSLO`: keep the first name (in iteration
order) whose vote count strictly exceeds the running maximum. -/
def maxVoteFold (votes : String → Nat) (order : List String) : String × Nat :=
  order.foldl (fun acc n => if acc.2 < votes n then (n, votes n) else acc)
    ("", 0)

/-- Winner of the majority vote for a given iteration order. -/
def sloMaxName (segs : List SegmentInfo) (order : List String) : String :=
  (maxVoteFold (containerVotes segs) order).1

/-- Longest common prefix of two character lists. -/
def lcp2 : List Char → List Char → List Char
  | c :: cs, e :: es => if c = e then c :: lcp2 cs es else []
  | _, _ => []

/-- Semantics of `longestcommon.Prefix` (the external dependency used by
`asSLO`): the longest common prefix of a list of strings, empty for the
empty list. -/
def lcpList : List String → String
  | [] => ""
  | s :: rest => rest.foldl (fun acc t => ⟨lcp2 acc.data t.data⟩) s

/-- Names of the segments lying in the chosen container (the `names` loop
of `asSLO`). -/
def sloChosenNames (segs : List SegmentInfo) (order : List String) :
    List String :=
  segs.filterMap (fun s => s.object.bind (fun o =>
    if o.c.name = sloMaxName segs order then some o.name else none))

/-- Raw longest-common-prefix of the chosen container's segment names. -/
def sloRawPfx (segs : List SegmentInfo) (order : List String) : String :=
  lcpList (sloChosenNames segs order)

/-- The two inferred fields of the large-object view built by `asSLO`. -/
structure SLOInference where
  segmentContainer : Option Container
  segmentNamePfx : String
deriving DecidableEq

/-- Embedding of the segment-container / segment-stem inference of `asSLO`
(src/largeobject.go): an empty manifest returns early with both fields
empty; otherwise the container is chosen by majority vote over the given
map iteration order, and the stem is the longest common prefix of the
chosen container's segment names, replaced by `path.Dir(prefix) + "/"`
when it contains a slash.  The one-to-one correspondence between manifest
records and parsed segments makes "manifest empty" the same as
`segs = []`. -/
def sloInfer (a : Account) (segs : List SegmentInfo) (order : List String) :
    SLOInference :=
  if segs = [] then ⟨none, ""⟩
  else
    let p := sloRawPfx segs order
    ⟨some ⟨a, sloMaxName segs order⟩,
      if p.data.contains '/' then goPathDir p ++ "/" else p⟩

/-- Object-backed segment living in container `cn` with object name `on`. -/
def segIn (cn objName : String) : SegmentInfo :=
  { object := some ⟨⟨acct0, cn⟩, objName⟩ }

/-- C5 counterexample: (i) a manifest with one segment in container `"a"`
and one in container `"b"` is a tie, and the two valid map iteration
orders infer different segment containers, so two openings of the same
manifest need not agree; (ii) a manifest holding only an inline-data
segment leaves no object-backed segments, yet the container field is set
to the (non-nil) container with empty name instead of being left empty;
(iii) for segment names `/a1`, `/a2` the longest common prefix `/a`
contains a slash and `path.Dir` produces the stem `"//"`, not the
trim-to-last-slash `"/"`. -/
theorem c5_counterexample :
    (validVoteOrder [segIn "a" "x1", segIn "b" "y1"] ["a", "b"] ∧
      validVoteOrder [segIn "a" "x1", segIn "b" "y1"] ["b", "a"] ∧
      (sloInfer acct0 [segIn "a" "x1", segIn "b" "y1"]
          ["a", "b"]).segmentContainer = some ⟨acct0, "a"⟩ ∧
      (sloInfer acct0 [segIn "a" "x1", segIn "b" "y1"]
          ["b", "a"]).segmentContainer = some ⟨acct0, "b"⟩) ∧
    (validVoteOrder [({ data := [45] } : SegmentInfo)] [] ∧
      (sloInfer acct0 [({ data := [45] } : SegmentInfo)]
          []).segmentContainer = some ⟨acct0, ""⟩) ∧
    (validVoteOrder [segIn "c" "/a1", segIn "c" "/a2"] ["c"] ∧
      sloRawPfx [segIn "c" "/a1", segIn "c" "/a2"] ["c"] = "/a" ∧
      (sloInfer acct0 [segIn "c" "/a1", segIn "c" "/a2"]
          ["c"]).segmentNamePfx = "//" ∧ ("//" : String) ≠ "/") := by
  refine ⟨⟨?_, ?_, by decide, by decide⟩, ⟨?_, by decide⟩,
    ⟨?_, by decide, by decide, by decide⟩⟩ <;>
    exact ⟨by decide, by decide, by decide⟩

/-- One character list is an initial run of another. -/
def pfxP (l m : List Char) : Prop := ∃ t, m = l ++ t

theorem pfxP_refl (l : List Char) : pfxP l l := ⟨[], by simp⟩

theorem pfxP_nil (m : List Char) : pfxP [] m := ⟨m, rfl⟩

theorem pfxP_trans {l m k : List Char} (h1 : pfxP l m) (h2 : pfxP m k) :
    pfxP l k := by
  obtain ⟨t, ht⟩ := h1
  obtain ⟨u, hu⟩ := h2
  exact ⟨t ++ u, by rw [hu, ht, List.append_assoc]⟩

theorem lcp2_pfx_left : ∀ x y : List Char, pfxP (lcp2 x y) x
  | [], y => ⟨[], rfl⟩
  | c :: cs, [] => ⟨c :: cs, rfl⟩
  | c :: cs, e :: es => by
    unfold lcp2
    by_cases hce : c = e
    · rw [if_pos hce]
      obtain ⟨t, ht⟩ := lcp2_pfx_left cs es
      exact ⟨t, by rw [List.cons_append, ← ht]⟩
    · rw [if_neg hce]
      exact pfxP_nil _

theorem lcp2_pfx_right : ∀ x y : List Char, pfxP (lcp2 x y) y
  | [], y => ⟨y, rfl⟩
  | c :: cs, [] => ⟨[], rfl⟩
  | c :: cs, e :: es => by
    unfold lcp2
    by_cases hce : c = e
    · rw [if_pos hce]
      obtain ⟨t, ht⟩ := lcp2_pfx_right cs es
      exact ⟨t, by rw [List.cons_append, ← ht, hce]⟩
    · rw [if_neg hce]
      exact pfxP_nil _

theorem lcp2_greatest : ∀ q x y : List Char, pfxP q x → pfxP q y →
    pfxP q (lcp2 x y)
  | [], _, _, _, _ => pfxP_nil _
  | a :: q', x, y, hx, hy => by
    obtain ⟨t, ht⟩ := hx
    obtain ⟨u, hu⟩ := hy
    subst ht hu
    show pfxP (a :: q') (lcp2 (a :: (q' ++ t)) (a :: (q' ++ u)))
    unfold lcp2
    rw [if_pos rfl]
    obtain ⟨v, hv⟩ := lcp2_greatest q' (q' ++ t) (q' ++ u) ⟨t, rfl⟩ ⟨u, rfl⟩
    exact ⟨v, by rw [List.cons_append, ← hv]⟩

theorem foldl_lcp_pfx_acc (rest : List String) :
    ∀ acc : String,
      pfxP (rest.foldl (fun a t => (⟨lcp2 a.data t.data⟩ : String)) acc).data
        acc.data := by
  induction rest with
  | nil => exact fun acc => pfxP_refl _
  | cons t ts ih =>
    intro acc
    rw [List.foldl_cons]
    exact pfxP_trans (ih ⟨lcp2 acc.data t.data⟩) (lcp2_pfx_left _ _)

theorem foldl_lcp_pfx_mem (rest : List String) :
    ∀ acc : String, ∀ t ∈ rest,
      pfxP (rest.foldl (fun a t => (⟨lcp2 a.data t.data⟩ : String)) acc).data
        t.data := by
  induction rest with
  | nil => intro _ t ht; cases ht
  | cons t ts ih =>
    intro acc u hu
    rw [List.foldl_cons]
    rcases List.mem_cons.mp hu with heq | hm
    · subst heq
      exact pfxP_trans (foldl_lcp_pfx_acc ts ⟨lcp2 acc.data u.data⟩)
        (lcp2_pfx_right _ _)
    · exact ih _ u hm

theorem foldl_lcp_greatest (rest : List String) :
    ∀ acc : String, ∀ q : List Char, pfxP q acc.data →
      (∀ t ∈ rest, pfxP q t.data) →
      pfxP q
        (rest.foldl (fun a t => (⟨lcp2 a.data t.data⟩ : String)) acc).data := by
  induction rest with
  | nil => intro _ q hacc _; exact hacc
  | cons t ts ih =>
    intro acc q hacc hall
    rw [List.foldl_cons]
    exact ih _ q (lcp2_greatest q _ _ hacc (hall t (List.mem_cons_self _ _)))
      (fun u hu => hall u (List.mem_cons_of_mem _ hu))

theorem maxVoteFold_acc_le (votes : String → Nat) (order : List String) :
    ∀ acc : String × Nat,
      acc.2 ≤ (order.foldl (fun acc n =>
        if acc.2 < votes n then (n, votes n) else acc) acc).2 := by
  induction order with
  | nil => exact fun _ => le_refl _
  | cons n rest ih =>
    intro acc
    rw [List.foldl_cons]
    refine le_trans ?_ (ih _)
    by_cases h : acc.2 < votes n
    · rw [if_pos h]
      exact le_of_lt h
    · rw [if_neg h]

theorem maxVoteFold_ge (votes : String → Nat) (order : List String) :
    ∀ acc : String × Nat, ∀ n ∈ order,
      votes n ≤ (order.foldl (fun acc n =>
        if acc.2 < votes n then (n, votes n) else acc) acc).2 := by
  induction order with
  | nil => intro _ n hn; cases hn
  | cons m rest ih =>
    intro acc n hn
    rw [List.foldl_cons]
    rcases List.mem_cons.mp hn with heq | hm
    · subst heq
      refine le_trans ?_ (maxVoteFold_acc_le votes rest _)
      by_cases h : acc.2 < votes n
      · rw [if_pos h]
      · rw [if_neg h]
        omega
    · exact ih _ n hm

theorem maxVoteFold_sound (votes : String → Nat) (order : List String) :
    ∀ acc : String × Nat,
      order.foldl (fun acc n =>
        if acc.2 < votes n then (n, votes n) else acc) acc = acc ∨
      ∃ n ∈ order, order.foldl (fun acc n =>
        if acc.2 < votes n then (n, votes n) else acc) acc = (n, votes n) := by
  induction order with
  | nil => exact fun _ => Or.inl rfl
  | cons m rest ih =>
    intro acc
    rw [List.foldl_cons]
    by_cases h : acc.2 < votes m
    · rw [if_pos h]
      rcases ih (m, votes m) with heq | ⟨n, hn, heq⟩
      · exact Or.inr ⟨m, List.mem_cons_self _ _, heq⟩
      · exact Or.inr ⟨n, List.mem_cons_of_mem _ hn, heq⟩
    · rw [if_neg h]
      rcases ih acc with heq | ⟨n, hn, heq⟩
      · exact Or.inl heq
      · exact Or.inr ⟨n, List.mem_cons_of_mem _ hn, heq⟩

theorem containerVotes_eq_zero_of_not_mem {segs : List SegmentInfo}
    {n : String} (h : n ∉ voteNames segs) : containerVotes segs n = 0 := by
  unfold containerVotes
  rw [List.count_eq_zero]
  intro hmem
  exact h (List.mem_dedup.mpr hmem)

/-- The majority-vote winner has a plurality: no container name holds
strictly more votes, for any valid iteration order. -/
theorem sloMaxName_plurality (segs : List SegmentInfo) (order : List String)
    (hord : validVoteOrder segs order) (n : String) :
    containerVotes segs n ≤ containerVotes segs (sloMaxName segs order) := by
  by_cases hn : n ∈ order
  · have hge := maxVoteFold_ge (containerVotes segs) order ("", 0) n hn
    rcases maxVoteFold_sound (containerVotes segs) order ("", 0) with heq |
      ⟨m, hm, heq⟩
    · unfold sloMaxName maxVoteFold
      rw [heq]
      show containerVotes segs n ≤ containerVotes segs ""
      rw [heq] at hge
      have hge' : containerVotes segs n ≤ 0 := hge
      omega
    · unfold sloMaxName maxVoteFold
      rw [heq]
      show containerVotes segs n ≤ containerVotes segs m
      rw [heq] at hge
      exact hge
  · rw [containerVotes_eq_zero_of_not_mem (fun hv => hn (hord.2.2 n hv))]
    exact Nat.zero_le _

/-- C5 (amended): for every valid map iteration order, an empty manifest
leaves both inferred fields empty; otherwise the inferred container is the
target account's container named by the majority vote over that order (so
ties are broken by Go's arbitrary map order and may differ between two
openings of the same manifest; a manifest with only inline-data segments
gets the container with empty name, not a nil field); the raw stem is the
longest common prefix of the chosen container's segment names (it is a
common prefix, and any common prefix is a prefix of it); and the final stem
replaces a slash-containing prefix by `path.Dir(prefix) + "/"`, which for
already-clean prefixes is the trim to the last slash inclusive. -/
theorem c5_slo_inference_amended (a : Account) (segs : List SegmentInfo)
    (order : List String) (hord : validVoteOrder segs order) :
    (segs = [] → sloInfer a segs order = ⟨none, ""⟩) ∧
    (segs ≠ [] →
      (sloInfer a segs order).segmentContainer =
        some ⟨a, sloMaxName segs order⟩ ∧
      (∀ n, containerVotes segs n ≤
        containerVotes segs (sloMaxName segs order)) ∧
      (∀ nm ∈ sloChosenNames segs order,
        pfxP (sloRawPfx segs order).data nm.data) ∧
      (∀ q, (∀ nm ∈ sloChosenNames segs order, pfxP q nm.data) →
        sloChosenNames segs order ≠ [] →
        pfxP q (sloRawPfx segs order).data) ∧
      (sloInfer a segs order).segmentNamePfx =
        (if (sloRawPfx segs order).data.contains '/'
          then goPathDir (sloRawPfx segs order) ++ "/"
          else sloRawPfx segs order)) := by
  constructor
  · intro h
    unfold sloInfer
    rw [if_pos h]
  · intro h
    refine ⟨?_, fun n => sloMaxName_plurality segs order hord n, ?_, ?_, ?_⟩
    · unfold sloInfer
      rw [if_neg h]
    · intro nm hnm
      unfold sloRawPfx lcpList
      cases hc : sloChosenNames segs order with
      | nil => rw [hc] at hnm; cases hnm
      | cons s rest =>
        rw [hc] at hnm
        rcases List.mem_cons.mp hnm with heq | hm
        · subst heq
          exact foldl_lcp_pfx_acc rest nm
        · exact foldl_lcp_pfx_mem rest s nm hm
    · intro q hq hne
      unfold sloRawPfx lcpList
      cases hc : sloChosenNames segs order with
      | nil => exact absurd hc hne
      | cons s rest =>
        rw [hc] at hq
        exact foldl_lcp_greatest rest s q (hq s (List.mem_cons_self _ _))
          (fun t ht => hq t (List.mem_cons_of_mem _ ht))
    · unfold sloInfer
      rw [if_neg h]

/-- C5 witness: the amended inference on a concrete two-segment manifest
with names `foo/bar/0001`, `foo/bar/0002` in container `c`. -/
theorem c5_slo_inference_amended_witness :
    (sloInfer acct0 [segIn "c" "foo/bar/0001", segIn "c" "foo/bar/0002"]
        ["c"]).segmentContainer = some ⟨acct0, "c"⟩ ∧
    containerVotes [segIn "c" "foo/bar/0001", segIn "c" "foo/bar/0002"] "z" ≤
      containerVotes [segIn "c" "foo/bar/0001", segIn "c" "foo/bar/0002"]
        (sloMaxName [segIn "c" "foo/bar/0001", segIn "c" "foo/bar/0002"]
          ["c"]) ∧
    pfxP (sloRawPfx [segIn "c" "foo/bar/0001", segIn "c" "foo/bar/0002"]
        ["c"]).data "foo/bar/0001".data ∧
    (sloInfer acct0 [segIn "c" "foo/bar/0001", segIn "c" "foo/bar/0002"]
        ["c"]).segmentNamePfx = "foo/bar/" := by
  have hord : validVoteOrder
      [segIn "c" "foo/bar/0001", segIn "c" "foo/bar/0002"] ["c"] :=
    ⟨by decide, by decide, by decide⟩
  have h := (c5_slo_inference_amended acct0
    [segIn "c" "foo/bar/0001", segIn "c" "foo/bar/0002"] ["c"] hord).2
    (by decide)
  refine ⟨?_, h.2.1 "z", h.2.2.1 "foo/bar/0001" (by decide), ?_⟩
  · rw [h.1]
    decide
  · rw [h.2.2.2.2]
    decide

end Schwift
